import Mathlib

/-!
Shallow embedding of the OskarTrack core pipeline: the centroid tracker
(src/ai_models/detector.py, class SimpleTracker), the zone geometry and
frame pipeline (src/ai_models/processor.py, class VideoProcessor) and the
coordinate validator (src/utils/helpers.py, validate_coordinates).

Modelling conventions:
* Python ints are Nat (pixel data is non-negative) or Int where
  subtraction occurs; the float arithmetic of the source (Euclidean
  distances, the polygon intersection abscissa) is modelled exactly:
  distances are compared through their integer squares, and the polygon
  interpolation is carried out in ℚ.
* Python dicts preserve insertion order and are modelled as association
  lists; the tracker never re-inserts a deleted key, so list order agrees
  with dict order at every reachable state.
* The OpenCV person detector is external input; the frame pipeline is
  parametrised by an abstract detection function.
-/

namespace OskarTrack

/-! ### Geometry: VideoProcessor.point_in_polygon -/

/-- One iteration of the edge loop of VideoProcessor.point_in_polygon
(src/ai_models/processor.py lines 34-43): the inside flag is toggled when
y is strictly above min(p1y, p2y), at most max(p1y, p2y), x is at most
max(p1x, p2x), and the edge is vertical or x is at most the interpolated
intersection abscissa.  Whenever the y-range test passes, p1y and p2y
differ, so the division is never by zero (in ℚ a zero division would
yield 0 but is unreachable in a toggling case). -/
def edgeStep (x y p1x p1y p2x p2y : ℚ) (inside : Bool) : Bool :=
  if min p1y p2y < y ∧ y ≤ max p1y p2y ∧ x ≤ max p1x p2x ∧
      (p1x = p2x ∨ x ≤ (y - p1y) * (p2x - p1x) / (p2y - p1y) + p1x) then
    !inside
  else inside

/-- The edge loop of point_in_polygon: p1 is the running previous vertex
and the list supplies the successive p2 vertices. -/
def pipGo (x y : ℚ) : ℚ × ℚ → List (ℚ × ℚ) → Bool → Bool
  | _, [], inside => inside
  | p1, p2 :: rest, inside =>
      pipGo x y p2 rest (edgeStep x y p1.1 p1.2 p2.1 p2.2 inside)

/-- VideoProcessor.point_in_polygon (src/ai_models/processor.py lines
27-45).  The Python loop runs i = 0 .. n with p2 = polygon[i % n]
starting from p1 = polygon[0], so the visited p2 vertices are the polygon
followed by its head again; the first iteration is the degenerate edge
(polygon[0], polygon[0]), which can never toggle.  An empty polygon
raises IndexError in the source and is modelled as false; every caller
in scope supplies at least 3 vertices. -/
def point_in_polygon (point : ℚ × ℚ) (polygon : List (ℚ × ℚ)) : Bool :=
  match polygon with
  | [] => false
  | p0 :: _ => pipGo point.1 point.2 p0 (polygon ++ [p0]) false

/-- The toggle rule exactly as the specification states it: strict lower
y bound, inclusive upper y bound, and vertical edge or x at most the
interpolated intersection abscissa — with no condition on
max(p1x, p2x). -/
def claimEdgeToggle (x y : ℚ) (e : (ℚ × ℚ) × (ℚ × ℚ)) : Bool :=
  decide (min e.1.2 e.2.2 < y ∧ y ≤ max e.1.2 e.2.2 ∧
    (e.1.1 = e.2.1 ∨ x ≤ (y - e.1.2) * (e.2.1 - e.1.1) / (e.2.2 - e.1.2) + e.1.1))

/-- The wrap-around edge list of a polygon: (p_i, p_{i+1 mod n}). -/
def polygonEdges (polygon : List (ℚ × ℚ)) : List ((ℚ × ℚ) × (ℚ × ℚ)) :=
  polygon.zip (polygon.rotate 1)

/-- Even-odd membership using the specification's stated toggle rule. -/
def claim_point_in_polygon (point : ℚ × ℚ) (polygon : List (ℚ × ℚ)) : Bool :=
  (polygonEdges polygon).countP (claimEdgeToggle point.1 point.2) % 2 == 1

/-- The amended toggle rule: the specification's rule plus the
x ≤ max(p1x, p2x) test that the source performs before the vertical /
intersection disjunction. -/
def amendedEdgeToggle (x y : ℚ) (e : (ℚ × ℚ) × (ℚ × ℚ)) : Bool :=
  decide (min e.1.2 e.2.2 < y ∧ y ≤ max e.1.2 e.2.2 ∧ x ≤ max e.1.1 e.2.1 ∧
    (e.1.1 = e.2.1 ∨ x ≤ (y - e.1.2) * (e.2.1 - e.1.1) / (e.2.2 - e.1.2) + e.1.1))

/-- Even-odd membership using the amended toggle rule. -/
def amended_point_in_polygon (point : ℚ × ℚ) (polygon : List (ℚ × ℚ)) : Bool :=
  (polygonEdges polygon).countP (amendedEdgeToggle point.1 point.2) % 2 == 1

/-! ### Detections and the tracker state -/

/-- A detection bounding box (x, y, w, h) in integer pixels, as produced
by PersonDetector.detect. -/
structure Det where
  x : Nat
  y : Nat
  w : Nat
  h : Nat
deriving DecidableEq, Repr

/-- Centroid of a detection (src/ai_models/detector.py lines 92-96):
cx = int(x + w / 2.0), cy = int(y + h / 2.0); on non-negative integers
this is floor division by 2. -/
def centroidOf (d : Det) : Nat × Nat := (d.x + d.w / 2, d.y + d.h / 2)

/-- SimpleTracker state (src/ai_models/detector.py lines 58-65). -/
structure SimpleTracker where
  next_object_id : Nat
  objects : List (Nat × (Nat × Nat))
  disappeared : List (Nat × Nat)
  max_disappeared : Nat
deriving DecidableEq, Repr

/-- SimpleTracker.__init__ with its max_disappeared parameter (the bare
default is 30; VideoProcessor constructs the tracker with 50). -/
def initTracker (m : Nat) : SimpleTracker := ⟨0, [], [], m⟩

/-- The key list of an association list, in insertion order. -/
def keysOf {α : Type} (l : List (Nat × α)) : List Nat := l.map Prod.fst

/-- Python dict item assignment for a key already present: the entry
keeps its position.  All assignment sites in the tracker write existing
keys. -/
def setVal {α : Type} (l : List (Nat × α)) (k : Nat) (v : α) : List (Nat × α) :=
  l.map (fun p => if p.1 = k then (k, v) else p)

/-- Python del of a dict key. -/
def removeKey {α : Type} (l : List (Nat × α)) (k : Nat) : List (Nat × α) :=
  l.filter (fun p => p.1 != k)

/-- SimpleTracker.register (src/ai_models/detector.py lines 67-71). -/
def register (t : SimpleTracker) (c : Nat × Nat) : SimpleTracker :=
  { t with objects := t.objects ++ [(t.next_object_id, c)],
           disappeared := t.disappeared ++ [(t.next_object_id, 0)],
           next_object_id := t.next_object_id + 1 }

/-- SimpleTracker.deregister (src/ai_models/detector.py lines 73-76). -/
def deregister (t : SimpleTracker) (objectId : Nat) : SimpleTracker :=
  { t with objects := removeKey t.objects objectId,
           disappeared := removeKey t.disappeared objectId }

/-! ### Distances and the greedy assignment -/

/-- Squared Euclidean distance between two centroids.  The source builds
the float distance matrix with scipy cdist and compares distances with
each other and with the gate 50; on integer centroids both comparisons
are equivalent to comparing exact squared distances (the gate becomes
2500). -/
def sqdist (a b : Nat × Nat) : Nat :=
  ((a.1 : Int) - b.1).natAbs ^ 2 + ((a.2 : Int) - b.2).natAbs ^ 2

/-- The pairwise distance matrix: rows are existing track centroids in
dict order, columns are input centroids in input order. -/
def distMatrix (ocs ics : List (Nat × Nat)) : List (List Nat) :=
  ocs.map (fun o => ics.map (fun i => sqdist o i))

/-- Row minimum, D.min(axis=1); every row is non-empty at the call
site. -/
def rowMin (row : List Nat) : Nat := row.min?.getD 0

/-- Stable insertion of index i into a list of indices sorted by
(value, index). -/
def insertIdx (vals : List Nat) (i : Nat) : List Nat → List Nat
  | [] => [i]
  | j :: rest =>
      if vals.getD i 0 < vals.getD j 0 ∨ (vals.getD i 0 = vals.getD j 0 ∧ i ≤ j) then
        i :: j :: rest
      else j :: insertIdx vals i rest

/-- numpy argsort of the row minima, modelled as the sort of indices by
value with ties broken by index (the stable order numpy produces on the
small arrays in scope). -/
def argsort (vals : List Nat) : List Nat :=
  (List.range vals.length).foldr (insertIdx vals) []

/-- numpy argmin of a row: the index of its first minimum. -/
def argminGo : List Nat → Nat → Nat → Nat → Nat
  | [], _, best, _ => best
  | v :: rest, idx, best, bestV =>
      if v < bestV then argminGo rest (idx + 1) idx v
      else argminGo rest (idx + 1) best bestV

/-- numpy argmin of a row (0 on an empty row, unreachable in scope). -/
def argmin : List Nat → Nat
  | [] => 0
  | v :: rest => argminGo rest 1 0 v

/-- One iteration of the disappearance loops (src/ai_models/detector.py
lines 85-89 and 133-138): increment the counter of oid and deregister it
when the counter exceeds max_disappeared.  Call sites always pass a
present key. -/
def disappearStep (t : SimpleTracker) (oid : Nat) : SimpleTracker :=
  let d := (t.disappeared.lookup oid).getD 0 + 1
  let t1 : SimpleTracker := { t with disappeared := setVal t.disappeared oid d }
  if t1.max_disappeared < d then deregister t1 oid else t1

/-- The greedy matching loop over zip(rows, cols)
(src/ai_models/detector.py lines 116-130), threading the used-row set,
the used-column set and the mutated tracker state. -/
def matchLoop (D : List (List Nat)) (objectIds : List Nat)
    (ics : List (Nat × Nat)) :
    List (Nat × Nat) → List Nat → List Nat → SimpleTracker →
    List Nat × List Nat × SimpleTracker
  | [], usedR, usedC, t => (usedR, usedC, t)
  | (r, c) :: rest, usedR, usedC, t =>
      if r ∈ usedR ∨ c ∈ usedC then matchLoop D objectIds ics rest usedR usedC t
      else if 2500 < (D.getD r []).getD c 0 then
        matchLoop D objectIds ics rest usedR usedC t
      else
        matchLoop D objectIds ics rest (usedR ++ [r]) (usedC ++ [c])
          { t with objects := setVal t.objects (objectIds.getD r 0) (ics.getD c (0, 0)),
                   disappeared := setVal t.disappeared (objectIds.getD r 0) 0 }

/-- SimpleTracker.update (src/ai_models/detector.py lines 78-145).  The
result is the new tracker state; the mapping the Python method returns is
the objects field of that state.  The unused row and column index sets
(Python sets at lines 132-133 and 140-141) are iterated here in
ascending index order — an idealization of CPython set iteration that is
exact only when every index is below 8; update_cpython below models the
CPython order itself.  The two models agree whenever there are at most 8
detections, and always produce the same counters and key sets, because
aging steps on distinct ids commute. -/
def update (t : SimpleTracker) (dets : List Det) : SimpleTracker :=
  if dets.isEmpty then
    (keysOf t.disappeared).foldl disappearStep t
  else
    let ics := dets.map centroidOf
    if t.objects.isEmpty then
      ics.foldl register t
    else
      let objectIds := keysOf t.objects
      let D := distMatrix (t.objects.map Prod.snd) ics
      let rows := argsort (D.map rowMin)
      let cols := rows.map (fun r => argmin (D.getD r []))
      let res := matchLoop D objectIds ics (rows.zip cols) [] [] t
      let unusedRows := (List.range D.length).filter (fun r => decide (r ∉ res.1))
      let t2 := (unusedRows.map (fun r => objectIds.getD r 0)).foldl disappearStep res.2.2
      let unusedCols := (List.range ics.length).filter (fun c => decide (c ∉ res.2.1))
      unusedCols.foldl (fun s c => register s (ics.getD c (0, 0))) t2

/-- Modelled from CPython set semantics (the source iterates
set(range(n)).difference(used) at src/ai_models/detector.py lines 133
and 141): a freshly built CPython set of small non-negative ints stores
an element in slot value mod 8 of its initial 8-slot hash table, and
iteration reads the slots in ascending order.  This is exact whenever
distinct elements occupy distinct slots and no resize happened (at most
5 elements); on elements all below 8 it is ascending order itself, while
for example the two-element set of 7 and 8 iterates as [8, 7] because
8 mod 8 = 0. -/
def pySetOrder (l : List Nat) : List Nat :=
  (List.range 8).flatMap (fun slot => l.filter (fun x => x % 8 == slot))

/-- SimpleTracker.update with the iteration order of the unused-row and
unused-column sets modelled by pySetOrder (the CPython order) instead of
ascending index order; every other branch coincides with update. -/
def update_cpython (t : SimpleTracker) (dets : List Det) : SimpleTracker :=
  if dets.isEmpty then
    (keysOf t.disappeared).foldl disappearStep t
  else
    let ics := dets.map centroidOf
    if t.objects.isEmpty then
      ics.foldl register t
    else
      let objectIds := keysOf t.objects
      let D := distMatrix (t.objects.map Prod.snd) ics
      let rows := argsort (D.map rowMin)
      let cols := rows.map (fun r => argmin (D.getD r []))
      let res := matchLoop D objectIds ics (rows.zip cols) [] [] t
      let unusedRows := pySetOrder ((List.range D.length).filter
        (fun r => decide (r ∉ res.1)))
      let t2 := (unusedRows.map (fun r => objectIds.getD r 0)).foldl disappearStep
        res.2.2
      let unusedCols := pySetOrder ((List.range ics.length).filter
        (fun c => decide (c ∉ res.2.1)))
      unusedCols.foldl (fun s c => register s (ics.getD c (0, 0))) t2

/-! ### The specification's description of greedy assignment -/

/-- Greedy acceptance as the specification words it: walk the
priority-ordered (row, argmin-column) pairs; accept a pair when neither
its row nor its column is already consumed and the gate admits the
distance, and record the accepted pairs in order. -/
def greedyAssign (D : List (List Nat)) :
    List (Nat × Nat) → List Nat → List Nat → List (Nat × Nat)
  | [], _, _ => []
  | (r, c) :: rest, usedR, usedC =>
      if r ∈ usedR ∨ c ∈ usedC then greedyAssign D rest usedR usedC
      else if 2500 < (D.getD r []).getD c 0 then greedyAssign D rest usedR usedC
      else (r, c) :: greedyAssign D rest (usedR ++ [r]) (usedC ++ [c])

/-- Apply one accepted match: refresh the matched track's centroid and
reset its disappearance counter to 0. -/
def applyMatch (objectIds : List Nat) (ics : List (Nat × Nat))
    (t : SimpleTracker) (rc : Nat × Nat) : SimpleTracker :=
  { t with objects := setVal t.objects (objectIds.getD rc.1 0) (ics.getD rc.2 (0, 0)),
           disappeared := setVal t.disappeared (objectIds.getD rc.1 0) 0 }

/-- The specification's phrasing of update for a state with live tracks
and a non-empty detection list: build the full pairwise distance matrix,
order the rows by their per-row minimum ascending, pick each row's
arg-min column, greedily accept unconsumed in-gate pairs, apply every
accepted match, age every unmatched row (deregistering on threshold
excess), then register every unmatched column in input order. -/
def spec_update (t : SimpleTracker) (dets : List Det) : SimpleTracker :=
  let ics := dets.map centroidOf
  let objectIds := keysOf t.objects
  let D := distMatrix (t.objects.map Prod.snd) ics
  let rows := argsort (D.map rowMin)
  let cols := rows.map (fun r => argmin (D.getD r []))
  let pairs := greedyAssign D (rows.zip cols) [] []
  let t1 := pairs.foldl (applyMatch objectIds ics) t
  let unmatchedRows := (List.range D.length).filter
    (fun r => decide (r ∉ pairs.map Prod.fst))
  let t2 := (unmatchedRows.map (fun r => objectIds.getD r 0)).foldl disappearStep t1
  let unmatchedCols := (List.range ics.length).filter
    (fun c => decide (c ∉ pairs.map Prod.snd))
  unmatchedCols.foldl (fun s c => register s (ics.getD c (0, 0))) t2

/-- The object ids matched by update t dets: empty when the update takes
the no-detections or the no-live-tracks branch, otherwise the ids of the
rows of the accepted greedy pairs. -/
def matchedIds (t : SimpleTracker) (dets : List Det) : List Nat :=
  if dets.isEmpty then []
  else if t.objects.isEmpty then []
  else
    let ics := dets.map centroidOf
    let objectIds := keysOf t.objects
    let D := distMatrix (t.objects.map Prod.snd) ics
    let rows := argsort (D.map rowMin)
    let cols := rows.map (fun r => argmin (D.getD r []))
    ((greedyAssign D (rows.zip cols) [] []).map Prod.fst).map
      (fun r => objectIds.getD r 0)

/-- A sequence of update calls. -/
def updates (t : SimpleTracker) (dss : List (List Det)) : SimpleTracker :=
  dss.foldl update t

/-- n update calls with an empty detection list. -/
def updateN (t : SimpleTracker) : Nat → SimpleTracker
  | 0 => t
  | n + 1 => updateN (update t []) n

/-- Track id i matches no detection at any step of the given sequence of
update calls. -/
def UnmatchedAll (i : Nat) : SimpleTracker → List (List Det) → Prop
  | _, [] => True
  | t, ds :: rest => i ∉ matchedIds t ds ∧ UnmatchedAll i (update t ds) rest

/-- Well-formedness of a tracker state: the two dicts share their key
set, keys are unique, and every live key is below the id counter.  It
holds of the initial state and is preserved by update. -/
structure WF (t : SimpleTracker) : Prop where
  keys_eq : keysOf t.objects = keysOf t.disappeared
  nodup : (keysOf t.objects).Nodup
  lt_next : ∀ j ∈ keysOf t.objects, j < t.next_object_id

/-! ### Zones and the video processor -/

/-- A zone as handed to VideoProcessor.load_zones: a dict with keys id,
name and coordinates (src/api/main.py builds these from database rows). -/
structure Zone where
  id : Nat
  name : String
  coordinates : List (ℚ × ℚ)
deriving DecidableEq, Repr

/-- VideoProcessor state: the tracker (constructed with
max_disappeared = 50) and the loaded zone list
(src/ai_models/processor.py lines 16-20). -/
structure VideoProcessor where
  tracker : SimpleTracker
  zones : List Zone
deriving DecidableEq, Repr

/-- VideoProcessor.__init__ (src/ai_models/processor.py lines 16-20);
the OpenCV detector member carries no modelled state. -/
def initProcessor : VideoProcessor := ⟨initTracker 50, []⟩

/-- VideoProcessor.load_zones (src/ai_models/processor.py lines 22-25):
a single unconditional assignment of the supplied list. -/
def load_zones (p : VideoProcessor) (zs : List Zone) : VideoProcessor :=
  { p with zones := zs }

/-- validate_coordinates (src/utils/helpers.py lines 67-78): a non-empty
list of at least 3 vertices, each a 2-element list of numbers.  Numbers
are modelled as ℚ, which makes the isinstance-number test vacuous; the
list-shape tests are kept. -/
def validate_coordinates (coords : List (List ℚ)) : Bool :=
  if coords.isEmpty || coords.length < 3 then false
  else coords.all (fun point => point.length == 2)

/-- The raw list-of-2-lists form of a vertex list, as stored in zone
dicts and fed to validate_coordinates. -/
def rawOf (l : List (ℚ × ℚ)) : List (List ℚ) := l.map (fun q => [q.1, q.2])

/-- VideoProcessor.detect_zone (src/ai_models/processor.py lines 47-52):
return the id of the first loaded zone whose polygon contains the
centroid, none when no zone matches. -/
def detect_zone (zones : List Zone) (c : ℚ × ℚ) : Option Nat :=
  match zones with
  | [] => none
  | z :: rest => if point_in_polygon c z.coordinates then some z.id else detect_zone rest c

/-! ### The frame pipeline -/

/-- The data of the dict returned by VideoProcessor.process_frame
(src/ai_models/processor.py lines 54-101); the annotated frame is pure
drawing and carries no modelled state. -/
structure FrameResult where
  detections : List Det
  tracked_objects : List (Nat × (Nat × Nat))
  zone_analysis : List (Nat × ((Nat × Nat) × Option Nat))
  person_count : Nat
deriving DecidableEq, Repr

/-- VideoProcessor.process_frame with the external person detector
abstracted as a function from frames to detections: update the tracker,
then resolve the zone of every tracked centroid. -/
def process_frame {Frame : Type} (detect : Frame → List Det)
    (p : VideoProcessor) (frame : Frame) : VideoProcessor × FrameResult :=
  let dets := detect frame
  let t1 := update p.tracker dets
  let za := t1.objects.map (fun oc =>
    (oc.1, (oc.2, detect_zone p.zones ((oc.2.1 : ℚ), (oc.2.2 : ℚ)))))
  (⟨t1, p.zones⟩, ⟨dets, t1.objects, za, t1.objects.length⟩)

/-- The frame loop of VideoProcessor.process_video
(src/ai_models/processor.py lines 110-136) with the frame counter
explicit: a frame is processed exactly when frame_count % 5 == 0, and the
counter advances on every frame. -/
def process_video_go {Frame : Type} (detect : Frame → List Det) :
    VideoProcessor → Nat → List Frame → VideoProcessor × List FrameResult
  | p, _, [] => (p, [])
  | p, cnt, f :: rest =>
      if cnt % 5 = 0 then
        let pr := process_frame detect p f
        let tail := process_video_go detect pr.1 (cnt + 1) rest
        (tail.1, pr.2 :: tail.2)
      else process_video_go detect p (cnt + 1) rest

/-- VideoProcessor.process_video on the frame sequence the capture
yields, starting the counter at 0. -/
def process_video {Frame : Type} (detect : Frame → List Det)
    (p : VideoProcessor) (frames : List Frame) : VideoProcessor × List FrameResult :=
  process_video_go detect p 0 frames

/-- The specification's description of the sampled iteration: the frames
surviving sampling with the given stride, i.e. those whose index is a
multiple of the stride. -/
def sampledFrames {Frame : Type} (stride : Nat) (frames : List Frame) : List Frame :=
  (frames.enum.filter (fun x => x.1 % stride == 0)).map Prod.snd

/-- Processing every frame of a list in order, with no sampling. -/
def processAll {Frame : Type} (detect : Frame → List Det) :
    VideoProcessor → List Frame → VideoProcessor × List FrameResult
  | p, [] => (p, [])
  | p, f :: rest =>
      let pr := process_frame detect p f
      let tail := processAll detect pr.1 rest
      (tail.1, pr.2 :: tail.2)

/-! ### Basic parity lemmas for the polygon test -/

theorem succ_parity (n : Nat) : ((n + 1) % 2 == 1) = !(n % 2 == 1) := by
  rcases Nat.mod_two_eq_zero_or_one n with h | h
  · have h2 : (n + 1) % 2 = 1 := by omega
    simp [h, h2]
  · have h2 : (n + 1) % 2 = 0 := by omega
    simp [h, h2]

theorem countP_parity_cons {α : Type} (P : α → Bool) (e : α) (es : List α) :
    ((e :: es).countP P % 2 == 1) = xor (P e) (es.countP P % 2 == 1) := by
  rw [List.countP_cons]
  cases h : P e
  · simp [h]
  · simp [h, succ_parity]

theorem edgeStep_eq_xor (x y p1x p1y p2x p2y : ℚ) (b : Bool) :
    edgeStep x y p1x p1y p2x p2y b
      = xor (amendedEdgeToggle x y ((p1x, p1y), (p2x, p2y))) b := by
  rw [edgeStep, amendedEdgeToggle]
  by_cases h : min p1y p2y < y ∧ y ≤ max p1y p2y ∧ x ≤ max p1x p2x ∧
      (p1x = p2x ∨ x ≤ (y - p1y) * (p2x - p1x) / (p2y - p1y) + p1x)
  · rw [if_pos h, decide_eq_true h]
    cases b <;> rfl
  · rw [if_neg h, decide_eq_false h]
    cases b <;> rfl

theorem pipGo_parity (x y : ℚ) :
    ∀ (l : List (ℚ × ℚ)) (p1 : ℚ × ℚ) (b : Bool),
    pipGo x y p1 l b
      = xor (((p1 :: l).zip l).countP (amendedEdgeToggle x y) % 2 == 1) b := by
  intro l
  induction l with
  | nil => intro p1 b; simp [pipGo]
  | cons p2 rest ih =>
      intro p1 b
      rw [pipGo, ih p2, edgeStep_eq_xor, List.zip_cons_cons, countP_parity_cons]
      generalize amendedEdgeToggle x y (p1, p2) = T
      generalize (((p2 :: rest).zip rest).countP (amendedEdgeToggle x y) % 2 == 1) = q
      cases T <;> cases q <;> cases b <;> rfl

theorem amended_toggle_self (x y : ℚ) (p : ℚ × ℚ) :
    amendedEdgeToggle x y (p, p) = false := by
  rw [amendedEdgeToggle, decide_eq_false_iff_not]
  rintro ⟨h1, h2, -, -⟩
  rw [min_self] at h1
  rw [max_self] at h2
  exact absurd h2 (not_le.mpr h1)

theorem zip_append_right {α β : Type} (a : α) :
    ∀ (l2 : List β) (l1 : List α), l2.length ≤ l1.length →
      (l1 ++ [a]).zip l2 = l1.zip l2 := by
  intro l2
  induction l2 with
  | nil => intro l1 _; simp
  | cons b rest ih =>
      intro l1 h
      cases l1 with
      | nil => simp at h
      | cons x xs =>
          simp only [List.cons_append, List.zip_cons_cons]
          rw [ih xs (by simpa using h)]

/-! ### Claim C3 -/

/-- C3 counterexample: on the square (0,0), (0,10), (10,10), (10,0) and
its interior point (5,5), the source test returns true but the claim's
stated toggle rule (which omits the x ≤ max(p1x, p2x) condition the
source also checks) yields false: the rule toggles on both vertical
edges, including the left one that lies strictly to the left of the
point. -/
theorem point_in_polygon_claim_rule_counterexample :
    point_in_polygon ((5 : ℚ), 5) [((0 : ℚ), 0), (0, 10), (10, 10), (10, 0)] = true ∧
    claim_point_in_polygon ((5 : ℚ), 5) [((0 : ℚ), 0), (0, 10), (10, 10), (10, 0)]
      = false := by
  constructor <;> decide

/-- C3 (amended): for every polygon with at least 3 vertices and every
point, the source test agrees with the even-odd rule whose edge toggle
fires exactly when y > min(p1y, p2y) strictly, y ≤ max(p1y, p2y),
x ≤ max(p1x, p2x), and the edge is vertical or x is at most the
interpolated intersection abscissa; in particular a point on a
horizontal edge never toggles for that edge. -/
theorem point_in_polygon_amended_rule (point : ℚ × ℚ) (polygon : List (ℚ × ℚ))
    (h : 3 ≤ polygon.length) :
    point_in_polygon point polygon = amended_point_in_polygon point polygon := by
  obtain ⟨p0, tl, rfl⟩ : ∃ p0 tl, polygon = p0 :: tl := by
    cases polygon with
    | nil => simp at h
    | cons a b => exact ⟨a, b, rfl⟩
  rw [point_in_polygon, pipGo_parity, amended_point_in_polygon, polygonEdges]
  have hrot : (p0 :: tl).rotate 1 = tl ++ [p0] := by
    rw [List.rotate_cons_succ, List.rotate_zero]
  rw [hrot]
  have hL : (p0 :: tl) ++ [p0] = p0 :: (tl ++ [p0]) := by simp
  rw [hL, List.zip_cons_cons, countP_parity_cons, amended_toggle_self]
  have hzip : (p0 :: (tl ++ [p0])).zip (tl ++ [p0])
      = ((p0 :: tl) ++ [p0]).zip (tl ++ [p0]) := by simp
  rw [hzip, zip_append_right p0 (tl ++ [p0]) (p0 :: tl) (by simp)]
  cases hq : ((p0 :: tl).zip (tl ++ [p0])).countP (amendedEdgeToggle point.1 point.2) % 2 == 1
  · rfl
  · rfl

/-- C3 witness: the amended equality at the unit square and an interior
point. -/
theorem point_in_polygon_amended_rule_witness :
    point_in_polygon ((5 : ℚ), 5) [((0 : ℚ), 0), (10, 0), (10, 10), (0, 10)]
      = amended_point_in_polygon ((5 : ℚ), 5) [((0 : ℚ), 0), (10, 0), (10, 10), (0, 10)] :=
  point_in_polygon_amended_rule ((5 : ℚ), 5)
    [((0 : ℚ), 0), (10, 0), (10, 10), (0, 10)] (by decide)

/-! ### Claim C2 -/

/-- C2 counterexample: load_zones performs no validation.  A zone whose
polygon has only 2 vertices is rejected by validate_coordinates, yet
load_zones installs it unchanged into the zone snapshot. -/
theorem load_zones_installs_invalid_zone :
    validate_coordinates (rawOf [((0 : ℚ), 0), (1, 1)]) = false ∧
    (load_zones initProcessor [⟨7, "bad", [((0 : ℚ), 0), (1, 1)]⟩]).zones
      = [⟨7, "bad", [((0 : ℚ), 0), (1, 1)]⟩] :=
  ⟨rfl, rfl⟩

/-- C2 (amended): load_zones unconditionally and atomically replaces the
zone snapshot with the supplied list — with no validation, so zones with
fewer than 3 vertices are installed; the rest of the processor state is
untouched. -/
theorem load_zones_unconditional (p : VideoProcessor) (zs : List Zone) :
    (load_zones p zs).zones = zs ∧ (load_zones p zs).tracker = p.tracker :=
  ⟨rfl, rfl⟩

/-! ### Claim C5 -/

theorem detect_zone_eq_none_iff (zones : List Zone) (c : ℚ × ℚ) :
    detect_zone zones c = none
      ↔ ∀ z ∈ zones, point_in_polygon c z.coordinates = false := by
  induction zones with
  | nil => simp [detect_zone]
  | cons z rest ih =>
      cases h : point_in_polygon c z.coordinates with
      | true =>
          simp only [detect_zone, h, if_true]
          constructor
          · intro hc; cases hc
          · intro hall
            have hz := hall z (by simp)
            rw [h] at hz
            cases hz
      | false =>
          simp only [detect_zone, h]
          simpa [h] using ih

theorem detect_zone_skips_misses (c : ℚ × ℚ) (l1 : List Zone) (z : Zone)
    (l2 : List Zone)
    (hmiss : ∀ z1 ∈ l1, point_in_polygon c z1.coordinates = false)
    (hhit : point_in_polygon c z.coordinates = true) :
    detect_zone (l1 ++ z :: l2) c = some z.id := by
  induction l1 with
  | nil => simp [detect_zone, hhit]
  | cons z1 rest ih =>
      have h1 : point_in_polygon c z1.coordinates = false := hmiss z1 (by simp)
      simp only [List.cons_append, detect_zone, h1]
      simpa [h1] using ih (fun w hw => hmiss w (by simp [hw]))

/-- C5: detect_zone returns the id of the first loaded zone (in load
order) whose polygon contains the point, and none exactly when no loaded
zone contains the point. -/
theorem detect_zone_first_match (zones : List Zone) (c : ℚ × ℚ) :
    (detect_zone zones c = none
      ↔ ∀ z ∈ zones, point_in_polygon c z.coordinates = false) ∧
    (∀ l1 z l2, zones = l1 ++ z :: l2 →
      (∀ z1 ∈ l1, point_in_polygon c z1.coordinates = false) →
      point_in_polygon c z.coordinates = true →
      detect_zone zones c = some z.id) := by
  refine ⟨detect_zone_eq_none_iff zones c, ?_⟩
  intro l1 z l2 hz hmiss hhit
  rw [hz]
  exact detect_zone_skips_misses c l1 z l2 hmiss hhit

/-- C5 witness: two overlapping zones A (id 1) and B (id 2), both
containing (5,5), loaded in order [A, B]: the resolver returns A's id. -/
theorem detect_zone_first_match_witness :
    detect_zone [⟨1, "A", [((0 : ℚ), 0), (10, 0), (10, 10), (0, 10)]⟩,
                 ⟨2, "B", [((0 : ℚ), 0), (20, 0), (20, 20), (0, 20)]⟩] ((5 : ℚ), 5)
      = some 1 :=
  (detect_zone_first_match
      [⟨1, "A", [((0 : ℚ), 0), (10, 0), (10, 10), (0, 10)]⟩,
       ⟨2, "B", [((0 : ℚ), 0), (20, 0), (20, 20), (0, 20)]⟩] ((5 : ℚ), 5)).2
    [] ⟨1, "A", [((0 : ℚ), 0), (10, 0), (10, 10), (0, 10)]⟩
    [⟨2, "B", [((0 : ℚ), 0), (20, 0), (20, 20), (0, 20)]⟩]
    rfl (by intro z1 hz1; cases hz1) (by decide)

/-! ### Claim C6 -/

theorem process_video_go_eq {Frame : Type} (detect : Frame → List Det) :
    ∀ (frames : List Frame) (p : VideoProcessor) (cnt : Nat),
    process_video_go detect p cnt frames =
      processAll detect p (((List.enumFrom cnt frames).filter
        (fun x => x.1 % 5 == 0)).map Prod.snd) := by
  intro frames
  induction frames with
  | nil => intro p cnt; rfl
  | cons f rest ih =>
      intro p cnt
      by_cases h : cnt % 5 = 0
      · simp only [process_video_go, h, if_true, List.enumFrom,
          List.filter_cons, List.map_cons]
        rw [ih]
        simp [processAll, h]
      · simp only [process_video_go, h, if_false, List.enumFrom,
          List.filter_cons]
        rw [ih]
        simp [h]

/-- C6: the sampled iteration of process_video is exactly the plain
iteration over the frames whose index is a multiple of 5 (indices 0, 5,
10, ...): skipped frames contribute no FrameResult and never reach the
tracker. -/
theorem process_video_samples_every_fifth {Frame : Type} (detect : Frame → List Det)
    (p : VideoProcessor) (frames : List Frame) :
    process_video detect p frames = processAll detect p (sampledFrames 5 frames) := by
  simpa [process_video, sampledFrames, List.enum] using
    process_video_go_eq detect frames p 0

/-! ### Claim C1 -/

theorem matchLoop_eq (D : List (List Nat)) (ids : List Nat) (ics : List (Nat × Nat)) :
    ∀ (pairs : List (Nat × Nat)) (uR uC : List Nat) (t : SimpleTracker),
    matchLoop D ids ics pairs uR uC t =
      (uR ++ (greedyAssign D pairs uR uC).map Prod.fst,
       uC ++ (greedyAssign D pairs uR uC).map Prod.snd,
       (greedyAssign D pairs uR uC).foldl (applyMatch ids ics) t) := by
  intro pairs
  induction pairs with
  | nil => intro uR uC t; simp [matchLoop, greedyAssign]
  | cons rc rest ih =>
      intro uR uC t
      obtain ⟨r, c⟩ := rc
      by_cases h1 : r ∈ uR ∨ c ∈ uC
      · simp only [matchLoop, greedyAssign, if_pos h1]
        exact ih uR uC t
      · by_cases h2 : 2500 < (D.getD r []).getD c 0
        · simp only [matchLoop, greedyAssign, if_neg h1, if_pos h2]
          exact ih uR uC t
        · simp only [matchLoop, greedyAssign, if_neg h1, if_neg h2]
          rw [ih]
          simp [applyMatch, List.append_assoc]

theorem update_eq_spec (t : SimpleTracker) (dets : List Det)
    (h1 : t.objects ≠ []) (h2 : dets ≠ []) :
    update t dets = spec_update t dets := by
  have e1 : dets.isEmpty = false := by
    cases dets with
    | nil => exact absurd rfl h2
    | cons a l => rfl
  have e2 : t.objects.isEmpty = false := by
    cases h : t.objects with
    | nil => exact absurd h h1
    | cons a l => rfl
  simp only [update, spec_update, e1, e2, Bool.false_eq_true, if_false,
    matchLoop_eq, List.nil_append]

/-! ### Claim C8 -/

/-- C8: update([]) on a tracker with no live tracks is the identity: for
every n, n such calls register nothing and each returns the empty
mapping. -/
theorem empty_update_idempotent (t : SimpleTracker)
    (h1 : t.objects = []) (h2 : t.disappeared = []) :
    ∀ n, updateN t n = t ∧ (updateN t n).objects = [] := by
  have hu : update t [] = t := by simp [update, keysOf, h2]
  intro n
  induction n with
  | zero => exact ⟨rfl, h1⟩
  | succ n ih =>
      rw [updateN, hu]
      exact ih

/-- C8 witness: three empty updates on a freshly constructed tracker. -/
theorem empty_update_idempotent_witness :
    updateN (initTracker 30) 3 = initTracker 30 ∧
    (updateN (initTracker 30) 3).objects = [] :=
  empty_update_idempotent (initTracker 30) rfl rfl 3

/-! ### Association list lemmas -/

theorem keysOf_append {α : Type} (l m : List (Nat × α)) :
    keysOf (l ++ m) = keysOf l ++ keysOf m := by
  simp [keysOf]

theorem keysOf_setVal {α : Type} (l : List (Nat × α)) (k : Nat) (v : α) :
    keysOf (setVal l k v) = keysOf l := by
  induction l with
  | nil => rfl
  | cons p rest ih =>
      show ((if p.1 = k then (k, v) else p) :: setVal rest k v).map Prod.fst
        = p.1 :: rest.map Prod.fst
      by_cases h : p.1 = k
      · rw [if_pos h, List.map_cons, h]
        exact congrArg _ ih
      · rw [if_neg h, List.map_cons]
        exact congrArg _ ih

theorem keysOf_removeKey {α : Type} (l : List (Nat × α)) (k : Nat) :
    keysOf (removeKey l k) = (keysOf l).filter (fun j => j != k) := by
  induction l with
  | nil => rfl
  | cons p rest ih =>
      by_cases h : p.1 = k
      · have hb : (p.1 != k) = false := by simp [h]
        simp only [removeKey, List.filter_cons, hb] at ih ⊢
        simpa [keysOf, List.filter_cons, hb] using ih
      · have hb : (p.1 != k) = true := by simp [h]
        simp only [removeKey, List.filter_cons, hb] at ih ⊢
        simpa [keysOf, List.filter_cons, hb] using ih

theorem mem_keysOf_removeKey {α : Type} (l : List (Nat × α)) (k i : Nat) :
    i ∈ keysOf (removeKey l k) ↔ i ∈ keysOf l ∧ i ≠ k := by
  rw [keysOf_removeKey, List.mem_filter]
  simp

theorem mem_keysOf_iff_lookup {α : Type} (l : List (Nat × α)) (i : Nat) :
    i ∈ keysOf l ↔ ∃ v, l.lookup i = some v := by
  induction l with
  | nil => simp [keysOf, List.lookup]
  | cons p rest ih =>
      obtain ⟨a, b⟩ := p
      have hcons : i ∈ keysOf ((a, b) :: rest) ↔ i = a ∨ i ∈ keysOf rest := by
        simp [keysOf]
      rw [hcons]
      by_cases h : i = a
      · have hb : (i == a) = true := by simpa using h
        simp only [List.lookup_cons, hb]
        exact ⟨fun _ => ⟨b, rfl⟩, fun _ => Or.inl h⟩
      · have hb : (i == a) = false := by simpa using h
        simp only [List.lookup_cons, hb]
        rw [← ih]
        exact ⟨fun hh => hh.resolve_left h, fun hh => Or.inr hh⟩

theorem lookup_setVal_self {α : Type} (l : List (Nat × α)) (k : Nat) (v : α)
    (h : k ∈ keysOf l) : (setVal l k v).lookup k = some v := by
  induction l with
  | nil => cases h
  | cons p rest ih =>
      show List.lookup k ((if p.1 = k then (k, v) else p) :: setVal rest k v) = some v
      by_cases hp : p.1 = k
      · rw [if_pos hp]
        simp [List.lookup_cons]
      · rw [if_neg hp]
        have hb : (k == p.1) = false := by
          simp only [beq_eq_false_iff_ne, ne_eq]
          exact fun hk => hp hk.symm
        have hm : k ∈ keysOf rest := by
          have hh : k = p.1 ∨ k ∈ keysOf rest := by simpa [keysOf] using h
          rcases hh with h1 | h1
          · exact absurd h1.symm hp
          · exact h1
        rw [← p.eta]
        simp only [List.lookup_cons, hb]
        exact ih hm

theorem lookup_setVal_ne {α : Type} (l : List (Nat × α)) (k i : Nat) (v : α)
    (h : i ≠ k) : (setVal l k v).lookup i = l.lookup i := by
  induction l with
  | nil => rfl
  | cons p rest ih =>
      obtain ⟨a, b⟩ := p
      show List.lookup i ((if a = k then (k, v) else (a, b)) :: setVal rest k v)
        = List.lookup i ((a, b) :: rest)
      by_cases hp : a = k
      · have hb : (i == k) = false := by simpa using h
        have hb2 : (i == a) = false := by simpa [hp] using h
        rw [if_pos hp]
        simp only [List.lookup_cons, hb, hb2]
        exact ih
      · rw [if_neg hp]
        simp only [List.lookup_cons]
        cases hq : (i == a)
        · exact ih
        · rfl

theorem lookup_removeKey_ne {α : Type} (l : List (Nat × α)) (k i : Nat)
    (h : i ≠ k) : (removeKey l k).lookup i = l.lookup i := by
  induction l with
  | nil => rfl
  | cons p rest ih =>
      obtain ⟨a, b⟩ := p
      rw [removeKey] at ih ⊢
      by_cases hp : a = k
      · rw [List.filter_cons_of_neg (by simp [hp])]
        have hb2 : (i == a) = false := by simpa [hp] using h
        rw [ih]
        simp only [List.lookup_cons, hb2]
      · rw [List.filter_cons_of_pos (by simp [hp])]
        simp only [List.lookup_cons]
        cases hq : (i == a)
        · exact ih
        · rfl

theorem lookup_append_left {α : Type} (l m : List (Nat × α)) (i : Nat)
    (h : i ∈ keysOf l) : (l ++ m).lookup i = l.lookup i := by
  induction l with
  | nil => cases h
  | cons p rest ih =>
      obtain ⟨a, b⟩ := p
      rw [List.cons_append]
      simp only [List.lookup_cons]
      cases hq : (i == a)
      · apply ih
        have hh : i = a ∨ i ∈ keysOf rest := by simpa [keysOf] using h
        rcases hh with h1 | h1
        · rw [h1] at hq; simp at hq
        · exact h1
      · rfl

theorem lookup_append_single_ne {α : Type} (l : List (Nat × α)) (n i : Nat) (v : α)
    (h : i ≠ n) : (l ++ [(n, v)]).lookup i = l.lookup i := by
  induction l with
  | nil =>
      have hb : (i == n) = false := by simpa using h
      simp only [List.nil_append, List.lookup_cons, hb]
  | cons p rest ih =>
      obtain ⟨a, b⟩ := p
      rw [List.cons_append]
      simp only [List.lookup_cons]
      cases hq : (i == a)
      · exact ih
      · rfl

/-! ### disappearStep lemmas -/

theorem disappearStep_next_max (t : SimpleTracker) (oid : Nat) :
    (disappearStep t oid).next_object_id = t.next_object_id ∧
    (disappearStep t oid).max_disappeared = t.max_disappeared := by
  rw [disappearStep]
  split
  · exact ⟨rfl, rfl⟩
  · exact ⟨rfl, rfl⟩

theorem disappearStep_objects_mem (t : SimpleTracker) (oid i : Nat)
    (h : i ∈ keysOf (disappearStep t oid).objects) : i ∈ keysOf t.objects := by
  rw [disappearStep] at h
  split at h
  · exact ((mem_keysOf_removeKey _ _ _).mp h).1
  · exact h

theorem disappearStep_untouched (t : SimpleTracker) (oid i : Nat) (h : oid ≠ i) :
    ((i ∈ keysOf (disappearStep t oid).objects) ↔ i ∈ keysOf t.objects) ∧
    (disappearStep t oid).disappeared.lookup i = t.disappeared.lookup i ∧
    ((i ∈ keysOf (disappearStep t oid).disappeared) ↔ i ∈ keysOf t.disappeared) := by
  have hne : i ≠ oid := fun hh => h hh.symm
  rw [disappearStep]
  split
  · refine ⟨?_, ?_, ?_⟩
    · show i ∈ keysOf (removeKey t.objects oid) ↔ _
      rw [mem_keysOf_removeKey]
      exact ⟨fun hh => hh.1, fun hh => ⟨hh, hne⟩⟩
    · show (removeKey (setVal t.disappeared oid _) oid).lookup i = _
      rw [lookup_removeKey_ne _ _ _ hne, lookup_setVal_ne _ _ _ _ hne]
    · show i ∈ keysOf (removeKey (setVal t.disappeared oid _) oid) ↔ _
      rw [mem_keysOf_removeKey, keysOf_setVal]
      exact ⟨fun hh => hh.1, fun hh => ⟨hh, hne⟩⟩
  · refine ⟨Iff.rfl, ?_, ?_⟩
    · show (setVal t.disappeared oid _).lookup i = _
      rw [lookup_setVal_ne _ _ _ _ hne]
    · show i ∈ keysOf (setVal t.disappeared oid _) ↔ _
      rw [keysOf_setVal]

theorem disappearStep_self (t : SimpleTracker) (i d : Nat)
    (hd : t.disappeared.lookup i = some d) (hobj : i ∈ keysOf t.objects) :
    (t.max_disappeared < d + 1 →
      i ∉ keysOf (disappearStep t i).objects ∧
      i ∉ keysOf (disappearStep t i).disappeared) ∧
    (d + 1 ≤ t.max_disappeared →
      i ∈ keysOf (disappearStep t i).objects ∧
      (disappearStep t i).disappeared.lookup i = some (d + 1)) := by
  have hmem : i ∈ keysOf t.disappeared := (mem_keysOf_iff_lookup _ _).mpr ⟨d, hd⟩
  constructor
  · intro hgt
    have he : disappearStep t i
        = deregister { t with disappeared := setVal t.disappeared i (d + 1) } i := by
      rw [disappearStep, hd]
      simp only [Option.getD_some]
      rw [if_pos hgt]
    rw [he]
    constructor
    · show i ∉ keysOf (removeKey t.objects i)
      rw [mem_keysOf_removeKey]
      rintro ⟨-, hh⟩
      exact hh rfl
    · show i ∉ keysOf (removeKey (setVal t.disappeared i (d + 1)) i)
      rw [mem_keysOf_removeKey]
      rintro ⟨-, hh⟩
      exact hh rfl
  · intro hle
    have he : disappearStep t i
        = { t with disappeared := setVal t.disappeared i (d + 1) } := by
      rw [disappearStep, hd]
      simp only [Option.getD_some]
      rw [if_neg (by omega)]
    rw [he]
    exact ⟨hobj, lookup_setVal_self _ _ _ hmem⟩

theorem disappearStep_keys_eq (t : SimpleTracker) (oid : Nat)
    (h : keysOf t.objects = keysOf t.disappeared) :
    keysOf (disappearStep t oid).objects = keysOf (disappearStep t oid).disappeared := by
  rw [disappearStep]
  split
  · show keysOf (removeKey t.objects oid) = keysOf (removeKey (setVal t.disappeared oid _) oid)
    rw [keysOf_removeKey, keysOf_removeKey, keysOf_setVal, h]
  · show keysOf t.objects = keysOf (setVal t.disappeared oid _)
    rw [keysOf_setVal, h]

theorem disappearStep_WF (t : SimpleTracker) (oid : Nat) (h : WF t) :
    WF (disappearStep t oid) := by
  refine ⟨disappearStep_keys_eq t oid h.keys_eq, ?_, ?_⟩
  · rw [disappearStep]
    split
    · show (keysOf (removeKey t.objects oid)).Nodup
      rw [keysOf_removeKey]
      exact h.nodup.filter _
    · exact h.nodup
  · intro j hj
    have hj2 : j ∈ keysOf t.objects := disappearStep_objects_mem t oid j hj
    rw [(disappearStep_next_max t oid).1]
    exact h.lt_next j hj2

/-! ### Folded disappearStep lemmas -/

theorem foldl_disappearStep_next_max (L : List Nat) : ∀ (t : SimpleTracker),
    (L.foldl disappearStep t).next_object_id = t.next_object_id ∧
    (L.foldl disappearStep t).max_disappeared = t.max_disappeared := by
  induction L with
  | nil => intro t; exact ⟨rfl, rfl⟩
  | cons o rest ih =>
      intro t
      rw [List.foldl_cons]
      refine ⟨?_, ?_⟩
      · rw [(ih _).1, (disappearStep_next_max t o).1]
      · rw [(ih _).2, (disappearStep_next_max t o).2]

theorem foldl_disappearStep_objects_mem (L : List Nat) : ∀ (t : SimpleTracker) (i : Nat),
    i ∈ keysOf (L.foldl disappearStep t).objects → i ∈ keysOf t.objects := by
  induction L with
  | nil => intro t i h; exact h
  | cons o rest ih =>
      intro t i h
      exact disappearStep_objects_mem t o i (ih _ i h)

theorem foldl_disappearStep_untouched (L : List Nat) : ∀ (t : SimpleTracker) (i : Nat),
    i ∉ L →
    ((i ∈ keysOf (L.foldl disappearStep t).objects ↔ i ∈ keysOf t.objects) ∧
     (L.foldl disappearStep t).disappeared.lookup i = t.disappeared.lookup i) := by
  induction L with
  | nil => intro t i _; exact ⟨Iff.rfl, rfl⟩
  | cons o rest ih =>
      intro t i h
      have ho : o ≠ i := fun hh => h (by simp [hh])
      have hrest : i ∉ rest := fun hh => h (by simp [hh])
      rw [List.foldl_cons]
      obtain ⟨m1, l1, -⟩ := disappearStep_untouched t o i ho
      obtain ⟨m2, l2⟩ := ih (disappearStep t o) i hrest
      exact ⟨m2.trans m1, l2.trans l1⟩

theorem foldl_disappearStep_keys_eq (L : List Nat) : ∀ (t : SimpleTracker),
    keysOf t.objects = keysOf t.disappeared →
    keysOf (L.foldl disappearStep t).objects
      = keysOf (L.foldl disappearStep t).disappeared := by
  induction L with
  | nil => intro t h; exact h
  | cons o rest ih =>
      intro t h
      exact ih _ (disappearStep_keys_eq t o h)

theorem foldl_disappearStep_WF (L : List Nat) : ∀ (t : SimpleTracker),
    WF t → WF (L.foldl disappearStep t) := by
  induction L with
  | nil => intro t h; exact h
  | cons o rest ih =>
      intro t h
      exact ih _ (disappearStep_WF t o h)

/-! ### applyMatch lemmas -/

theorem applyMatch_keys (ids : List Nat) (ics : List (Nat × Nat))
    (t : SimpleTracker) (rc : Nat × Nat) :
    keysOf (applyMatch ids ics t rc).objects = keysOf t.objects ∧
    keysOf (applyMatch ids ics t rc).disappeared = keysOf t.disappeared ∧
    (applyMatch ids ics t rc).next_object_id = t.next_object_id ∧
    (applyMatch ids ics t rc).max_disappeared = t.max_disappeared :=
  ⟨keysOf_setVal _ _ _, keysOf_setVal _ _ _, rfl, rfl⟩

theorem foldl_applyMatch_keys (ids : List Nat) (ics : List (Nat × Nat))
    (pairs : List (Nat × Nat)) : ∀ (t : SimpleTracker),
    keysOf (pairs.foldl (applyMatch ids ics) t).objects = keysOf t.objects ∧
    keysOf (pairs.foldl (applyMatch ids ics) t).disappeared = keysOf t.disappeared ∧
    (pairs.foldl (applyMatch ids ics) t).next_object_id = t.next_object_id ∧
    (pairs.foldl (applyMatch ids ics) t).max_disappeared = t.max_disappeared := by
  induction pairs with
  | nil => intro t; exact ⟨rfl, rfl, rfl, rfl⟩
  | cons rc rest ih =>
      intro t
      rw [List.foldl_cons]
      obtain ⟨a1, a2, a3, a4⟩ := ih (applyMatch ids ics t rc)
      obtain ⟨b1, b2, b3, b4⟩ := applyMatch_keys ids ics t rc
      exact ⟨a1.trans b1, a2.trans b2, a3.trans b3, a4.trans b4⟩

theorem foldl_applyMatch_lookup_ne (ids : List Nat) (ics : List (Nat × Nat))
    (pairs : List (Nat × Nat)) : ∀ (t : SimpleTracker) (i : Nat),
    (∀ rc ∈ pairs, ids.getD rc.1 0 ≠ i) →
    (pairs.foldl (applyMatch ids ics) t).disappeared.lookup i
      = t.disappeared.lookup i := by
  induction pairs with
  | nil => intro t i _; rfl
  | cons rc rest ih =>
      intro t i h
      rw [List.foldl_cons]
      have h1 : ids.getD rc.1 0 ≠ i := h rc (by simp)
      have hne : i ≠ ids.getD rc.1 0 := fun hh => h1 hh.symm
      rw [ih _ i (fun w hw => h w (by simp [hw]))]
      show (setVal t.disappeared (ids.getD rc.1 0) 0).lookup i = _
      rw [lookup_setVal_ne _ _ _ _ hne]

/-! ### register lemmas -/

theorem register_WF (t : SimpleTracker) (c : Nat × Nat) (h : WF t) :
    WF (register t c) := by
  refine ⟨?_, ?_, ?_⟩
  · show keysOf (t.objects ++ [(t.next_object_id, c)])
      = keysOf (t.disappeared ++ [(t.next_object_id, 0)])
    rw [keysOf_append, keysOf_append, h.keys_eq]
    rfl
  · show (keysOf (t.objects ++ [(t.next_object_id, c)])).Nodup
    rw [keysOf_append]
    rw [List.nodup_append]
    refine ⟨h.nodup, by simp [keysOf], ?_⟩
    intro a ha hb
    have h1 : a < t.next_object_id := h.lt_next a ha
    have h2 : a = t.next_object_id := by simpa [keysOf] using hb
    omega
  · intro j hj
    show j < t.next_object_id + 1
    have he : keysOf (register t c).objects = keysOf t.objects ++ [t.next_object_id] := by
      show keysOf (t.objects ++ [(t.next_object_id, c)]) = _
      rw [keysOf_append]
      rfl
    rw [he] at hj
    rcases List.mem_append.mp hj with h1 | h1
    · have := h.lt_next j h1
      omega
    · have : j = t.next_object_id := by simpa using h1
      omega

theorem foldl_register_next (cs : List (Nat × Nat)) : ∀ (t : SimpleTracker),
    t.next_object_id ≤ (cs.foldl register t).next_object_id ∧
    (cs.foldl register t).max_disappeared = t.max_disappeared := by
  induction cs with
  | nil => intro t; exact ⟨le_refl _, rfl⟩
  | cons c rest ih =>
      intro t
      rw [List.foldl_cons]
      obtain ⟨h1, h2⟩ := ih (register t c)
      refine ⟨?_, h2⟩
      have : (register t c).next_object_id = t.next_object_id + 1 := rfl
      omega

theorem foldl_register_mem (cs : List (Nat × Nat)) : ∀ (t : SimpleTracker) (j : Nat),
    j ∈ keysOf (cs.foldl register t).objects →
    j ∈ keysOf t.objects ∨ t.next_object_id ≤ j := by
  induction cs with
  | nil => intro t j h; exact Or.inl h
  | cons c rest ih =>
      intro t j h
      rw [List.foldl_cons] at h
      rcases ih (register t c) j h with h1 | h1
      · have : j ∈ keysOf t.objects ++ [t.next_object_id] := by
          have he : keysOf (register t c).objects
              = keysOf t.objects ++ [t.next_object_id] := by
            show keysOf (t.objects ++ [(t.next_object_id, c)]) = _
            rw [keysOf_append]
            rfl
          rw [← he]
          exact h1
        rcases List.mem_append.mp this with h2 | h2
        · exact Or.inl h2
        · have : j = t.next_object_id := by simpa using h2
          omega
      · have : (register t c).next_object_id = t.next_object_id + 1 := rfl
        omega

theorem foldl_register_mem_of_mem (cs : List (Nat × Nat)) :
    ∀ (t : SimpleTracker) (i : Nat),
    i ∈ keysOf t.objects → i ∈ keysOf (cs.foldl register t).objects := by
  induction cs with
  | nil => intro t i h; exact h
  | cons c rest ih =>
      intro t i h
      rw [List.foldl_cons]
      apply ih
      show i ∈ keysOf (t.objects ++ [(t.next_object_id, c)])
      rw [keysOf_append]
      exact List.mem_append.mpr (Or.inl h)

theorem foldl_register_lookup_dis (cs : List (Nat × Nat)) :
    ∀ (t : SimpleTracker) (i : Nat), i < t.next_object_id →
    (cs.foldl register t).disappeared.lookup i = t.disappeared.lookup i := by
  induction cs with
  | nil => intro t i _; rfl
  | cons c rest ih =>
      intro t i h
      rw [List.foldl_cons]
      have hnext : (register t c).next_object_id = t.next_object_id + 1 := rfl
      rw [ih (register t c) i (by omega)]
      show (t.disappeared ++ [(t.next_object_id, 0)]).lookup i = _
      exact lookup_append_single_ne _ _ _ _ (by omega)

theorem foldl_register_keys_eq (cs : List (Nat × Nat)) : ∀ (t : SimpleTracker),
    keysOf t.objects = keysOf t.disappeared →
    keysOf (cs.foldl register t).objects = keysOf (cs.foldl register t).disappeared := by
  induction cs with
  | nil => intro t h; exact h
  | cons c rest ih =>
      intro t h
      rw [List.foldl_cons]
      apply ih
      show keysOf (t.objects ++ [(t.next_object_id, c)])
        = keysOf (t.disappeared ++ [(t.next_object_id, 0)])

      rw [keysOf_append, keysOf_append, h]
      rfl

theorem foldl_register_WF (cs : List (Nat × Nat)) : ∀ (t : SimpleTracker),
    WF t → WF (cs.foldl register t) := by
  induction cs with
  | nil => intro t h; exact h
  | cons c rest ih =>
      intro t h
      rw [List.foldl_cons]
      exact ih _ (register_WF t c h)

/-! ### Assembled update lemmas -/

theorem foldl_applyMatch_WF (ids : List Nat) (ics : List (Nat × Nat))
    (pairs : List (Nat × Nat)) (t : SimpleTracker) (h : WF t) :
    WF (pairs.foldl (applyMatch ids ics) t) := by
  obtain ⟨k1, k2, k3, k4⟩ := foldl_applyMatch_keys ids ics pairs t
  refine ⟨?_, ?_, ?_⟩
  · rw [k1, k2]; exact h.keys_eq
  · rw [k1]; exact h.nodup
  · intro j hj
    rw [k3]
    exact h.lt_next j (by rw [k1] at hj; exact hj)

/-- Aging a key list containing i exactly once (gL nodup) and then
registering fresh tracks: the fate of i is decided by the threshold. -/
theorem aged_then_registered (t : SimpleTracker) (gL : List Nat)
    (regs : List (Nat × Nat)) (i d : Nat) (_hWF : WF t)
    (hobj : i ∈ keysOf t.objects)
    (hd : t.disappeared.lookup i = some d)
    (hmem : i ∈ gL) (hnd : gL.Nodup) (hlt : i < t.next_object_id) :
    (t.max_disappeared < d + 1 →
       i ∉ keysOf (regs.foldl register (gL.foldl disappearStep t)).objects) ∧
    (d + 1 ≤ t.max_disappeared →
       i ∈ keysOf (regs.foldl register (gL.foldl disappearStep t)).objects ∧
       (regs.foldl register (gL.foldl disappearStep t)).disappeared.lookup i
         = some (d + 1)) := by
  obtain ⟨L1, L2, rfl⟩ := List.append_of_mem hmem
  have hnm : i ∉ L1 ∧ i ∉ L2 := by
    have := List.nodup_middle.mp hnd
    rcases List.nodup_cons.mp this with ⟨hn, -⟩
    exact ⟨fun hh => hn (List.mem_append.mpr (Or.inl hh)),
           fun hh => hn (List.mem_append.mpr (Or.inr hh))⟩
  have hfold : (L1 ++ i :: L2).foldl disappearStep t
      = L2.foldl disappearStep (disappearStep (L1.foldl disappearStep t) i) := by
    rw [List.foldl_append, List.foldl_cons]
  set tA := L1.foldl disappearStep t with htA
  have hAobj : i ∈ keysOf tA.objects :=
    ((foldl_disappearStep_untouched L1 t i hnm.1).1).mpr hobj
  have hAdis : tA.disappeared.lookup i = some d := by
    rw [(foldl_disappearStep_untouched L1 t i hnm.1).2, hd]
  have hAmax : tA.max_disappeared = t.max_disappeared :=
    (foldl_disappearStep_next_max L1 t).2
  have hAnext : tA.next_object_id = t.next_object_id :=
    (foldl_disappearStep_next_max L1 t).1
  obtain ⟨hgt, hle⟩ := disappearStep_self tA i d hAdis hAobj
  constructor
  · intro hcond
    have h1 : i ∉ keysOf (disappearStep tA i).objects :=
      (hgt (by omega)).1
    have h2 : i ∉ keysOf (L2.foldl disappearStep (disappearStep tA i)).objects :=
      fun hh => h1 (foldl_disappearStep_objects_mem L2 _ i hh)
    rw [hfold]
    intro hh
    rcases foldl_register_mem regs _ i hh with h3 | h3
    · exact h2 h3
    · have hn2 : (disappearStep tA i).next_object_id = tA.next_object_id :=
        (disappearStep_next_max tA i).1
      have hn3 := (foldl_disappearStep_next_max L2 (disappearStep tA i)).1
      omega
  · intro hcond
    obtain ⟨hin, hlook⟩ := hle (by omega)
    obtain ⟨m2, l2⟩ := foldl_disappearStep_untouched L2 (disappearStep tA i) i hnm.2
    have hin2 : i ∈ keysOf (L2.foldl disappearStep (disappearStep tA i)).objects :=
      m2.mpr hin
    have hlook2 : (L2.foldl disappearStep (disappearStep tA i)).disappeared.lookup i
        = some (d + 1) := by rw [l2, hlook]
    have hn4 : (L2.foldl disappearStep (disappearStep tA i)).next_object_id
        = t.next_object_id := by
      rw [(foldl_disappearStep_next_max L2 _).1, (disappearStep_next_max tA i).1, hAnext]
    rw [hfold]
    constructor
    · exact foldl_register_mem_of_mem regs _ i hin2
    · rw [foldl_register_lookup_dis regs _ i (by omega), hlook2]

theorem update_WF (t : SimpleTracker) (dets : List Det) (h : WF t) :
    WF (update t dets) ∧
    t.next_object_id ≤ (update t dets).next_object_id ∧
    (update t dets).max_disappeared = t.max_disappeared ∧
    (∀ j ∈ keysOf (update t dets).objects,
      j ∈ keysOf t.objects ∨ t.next_object_id ≤ j) := by
  cases hd : dets.isEmpty with
  | true =>
      have he : update t dets = (keysOf t.disappeared).foldl disappearStep t := by
        rw [update, if_pos hd]
      rw [he]
      refine ⟨foldl_disappearStep_WF _ t h, ?_, (foldl_disappearStep_next_max _ t).2, ?_⟩
      · rw [(foldl_disappearStep_next_max _ t).1]
      · intro j hj
        exact Or.inl (foldl_disappearStep_objects_mem _ t j hj)
  | false =>
      cases ho : t.objects.isEmpty with
      | true =>
          have he : update t dets = (dets.map centroidOf).foldl register t := by
            simp [update, hd, ho]
          rw [he]
          exact ⟨foldl_register_WF _ t h, (foldl_register_next _ t).1,
            (foldl_register_next _ t).2, fun j hj => foldl_register_mem _ t j hj⟩
      | false =>
          have hne1 : t.objects ≠ [] := by
            intro hh; rw [hh] at ho; cases ho
          have hne2 : dets ≠ [] := by
            intro hh; rw [hh] at hd; cases hd
          rw [update_eq_spec t dets hne1 hne2]
          rw [spec_update]
          set ics := dets.map centroidOf with hics
          set ids := keysOf t.objects with hids
          set D := distMatrix (t.objects.map Prod.snd) ics with hD
          set pairs := greedyAssign D ((argsort (D.map rowMin)).zip
            ((argsort (D.map rowMin)).map (fun r => argmin (D.getD r [])))) [] []
            with hpairs
          set t1 := pairs.foldl (applyMatch ids ics) t with ht1
          set gL := (((List.range D.length).filter
            (fun r => decide (r ∉ pairs.map Prod.fst))).map
            (fun r => ids.getD r 0)) with hgL
          set t2 := gL.foldl disappearStep t1 with ht2
          set ucs := (List.range ics.length).filter
            (fun c => decide (c ∉ pairs.map Prod.snd)) with hucs
          obtain ⟨k1, k2, k3, k4⟩ := foldl_applyMatch_keys ids ics pairs t
          have hWF1 : WF t1 := foldl_applyMatch_WF ids ics pairs t h
          have hWF2 : WF t2 := foldl_disappearStep_WF gL t1 hWF1
          have hn2 : t2.next_object_id = t.next_object_id := by
            rw [(foldl_disappearStep_next_max gL t1).1, k3]
          have hm2 : t2.max_disappeared = t.max_disappeared := by
            rw [(foldl_disappearStep_next_max gL t1).2, k4]
          rw [show (ucs.foldl (fun s c => register s (ics.getD c (0, 0))) t2)
              = (ucs.map (fun c => ics.getD c (0, 0))).foldl register t2 from
            (List.foldl_map _ _ _ _).symm]
          refine ⟨foldl_register_WF _ t2 hWF2, ?_, ?_, ?_⟩
          · have := (foldl_register_next (ucs.map (fun c => ics.getD c (0, 0))) t2).1
            omega
          · rw [(foldl_register_next (ucs.map (fun c => ics.getD c (0, 0))) t2).2, hm2]
          · intro j hj
            rcases foldl_register_mem _ t2 j hj with h1 | h1
            · have h2 : j ∈ keysOf t1.objects :=
                foldl_disappearStep_objects_mem gL t1 j h1
              rw [k1] at h2
              exact Or.inl h2
            · right; omega

theorem update_keys_eq (t : SimpleTracker) (dets : List Det)
    (h : keysOf t.objects = keysOf t.disappeared) :
    keysOf (update t dets).objects = keysOf (update t dets).disappeared := by
  cases hd : dets.isEmpty with
  | true =>
      have he : update t dets = (keysOf t.disappeared).foldl disappearStep t := by
        rw [update, if_pos hd]
      rw [he]
      exact foldl_disappearStep_keys_eq _ t h
  | false =>
      cases ho : t.objects.isEmpty with
      | true =>
          have he : update t dets = (dets.map centroidOf).foldl register t := by
            simp [update, hd, ho]
          rw [he]
          exact foldl_register_keys_eq _ t h
      | false =>
          have hne1 : t.objects ≠ [] := by
            intro hh; rw [hh] at ho; cases ho
          have hne2 : dets ≠ [] := by
            intro hh; rw [hh] at hd; cases hd
          rw [update_eq_spec t dets hne1 hne2]
          rw [spec_update]
          set ics := dets.map centroidOf with hics
          set ids := keysOf t.objects with hids
          set D := distMatrix (t.objects.map Prod.snd) ics with hD
          set pairs := greedyAssign D ((argsort (D.map rowMin)).zip
            ((argsort (D.map rowMin)).map (fun r => argmin (D.getD r [])))) [] []
            with hpairs
          set t1 := pairs.foldl (applyMatch ids ics) t with ht1
          set gL := (((List.range D.length).filter
            (fun r => decide (r ∉ pairs.map Prod.fst))).map
            (fun r => ids.getD r 0)) with hgL
          set t2 := gL.foldl disappearStep t1 with ht2
          set ucs := (List.range ics.length).filter
            (fun c => decide (c ∉ pairs.map Prod.snd)) with hucs
          obtain ⟨k1, k2, -, -⟩ := foldl_applyMatch_keys ids ics pairs t
          have h1 : keysOf t1.objects = keysOf t1.disappeared := by
            rw [k1, k2, ← hids]
            exact h
          have h2 : keysOf t2.objects = keysOf t2.disappeared :=
            foldl_disappearStep_keys_eq gL t1 h1
          rw [show (ucs.foldl (fun s c => register s (ics.getD c (0, 0))) t2)
              = (ucs.map (fun c => ics.getD c (0, 0))).foldl register t2 from
            (List.foldl_map _ _ _ _).symm]
          exact foldl_register_keys_eq _ t2 h2

/-! ### Claim C9 -/

/-- C9: after construction and after every register, deregister and
update call on a state whose two maps agree on keys, the objects map and
the disappeared map have identical key sets. -/
theorem objects_disappeared_key_sets_agree :
    (∀ m, keysOf (initTracker m).objects = keysOf (initTracker m).disappeared) ∧
    (∀ t : SimpleTracker, keysOf t.objects = keysOf t.disappeared →
      (∀ c, keysOf (register t c).objects = keysOf (register t c).disappeared) ∧
      (∀ j, keysOf (deregister t j).objects = keysOf (deregister t j).disappeared) ∧
      (∀ dets, keysOf (update t dets).objects = keysOf (update t dets).disappeared)) := by
  refine ⟨fun m => rfl, fun t h => ⟨?_, ?_, fun dets => update_keys_eq t dets h⟩⟩
  · intro c
    show keysOf (t.objects ++ [(t.next_object_id, c)])
      = keysOf (t.disappeared ++ [(t.next_object_id, 0)])
    rw [keysOf_append, keysOf_append, h]
    rfl
  · intro j
    show keysOf (removeKey t.objects j) = keysOf (removeKey t.disappeared j)
    rw [keysOf_removeKey, keysOf_removeKey, h]

/-- C9 witness: the key-set agreement at a concrete two-track state,
instantiated for a register, a deregister and an update call. -/
theorem objects_disappeared_key_sets_agree_witness :
    keysOf (register ⟨2, [(0, (0, 0)), (1, (9, 9))], [(0, 0), (1, 2)], 50⟩ (5, 5)).objects
      = keysOf (register ⟨2, [(0, (0, 0)), (1, (9, 9))], [(0, 0), (1, 2)], 50⟩ (5, 5)).disappeared ∧
    keysOf (deregister ⟨2, [(0, (0, 0)), (1, (9, 9))], [(0, 0), (1, 2)], 50⟩ 1).objects
      = keysOf (deregister ⟨2, [(0, (0, 0)), (1, (9, 9))], [(0, 0), (1, 2)], 50⟩ 1).disappeared ∧
    keysOf (update ⟨2, [(0, (0, 0)), (1, (9, 9))], [(0, 0), (1, 2)], 50⟩ [⟨3, 4, 2, 2⟩]).objects
      = keysOf (update ⟨2, [(0, (0, 0)), (1, (9, 9))], [(0, 0), (1, 2)], 50⟩ [⟨3, 4, 2, 2⟩]).disappeared :=
  ⟨(objects_disappeared_key_sets_agree.2 ⟨2, [(0, (0, 0)), (1, (9, 9))], [(0, 0), (1, 2)], 50⟩ rfl).1 (5, 5),
   (objects_disappeared_key_sets_agree.2 ⟨2, [(0, (0, 0)), (1, (9, 9))], [(0, 0), (1, 2)], 50⟩ rfl).2.1 1,
   (objects_disappeared_key_sets_agree.2 ⟨2, [(0, (0, 0)), (1, (9, 9))], [(0, 0), (1, 2)], 50⟩ rfl).2.2 [⟨3, 4, 2, 2⟩]⟩

/-! ### Claim C7 -/

/-- C7: starting from a well-formed state (live ids unique and below the
counter, key sets agreeing), update preserves well-formedness, never
decreases the id counter, and every id present after the call that was
not present before is at least the old counter value — so new tracks
always receive ids strictly greater than every previously assigned id,
ids are never reused, and every live id stays below the counter. -/
theorem track_ids_monotone (t : SimpleTracker) (dets : List Det) (h : WF t) :
    WF (update t dets) ∧
    t.next_object_id ≤ (update t dets).next_object_id ∧
    (∀ j ∈ keysOf (update t dets).objects,
      j ∉ keysOf t.objects → t.next_object_id ≤ j) := by
  obtain ⟨w, hn, -, hm⟩ := update_WF t dets h
  exact ⟨w, hn, fun j hj hnot => (hm j hj).resolve_left hnot⟩

/-- C7 witness: one live track at (0,0), one far detection: the old
track survives, the new one gets the fresh id 1 ≥ next counter 1. -/
theorem track_ids_monotone_witness :
    WF (update ⟨1, [(0, (0, 0))], [(0, 0)], 50⟩ [⟨100, 0, 0, 0⟩]) ∧
    (1 : Nat) ≤ (update ⟨1, [(0, (0, 0))], [(0, 0)], 50⟩ [⟨100, 0, 0, 0⟩]).next_object_id ∧
    (∀ j ∈ keysOf (update ⟨1, [(0, (0, 0))], [(0, 0)], 50⟩ [⟨100, 0, 0, 0⟩]).objects,
      j ∉ keysOf (⟨1, [(0, (0, 0))], [(0, 0)], 50⟩ : SimpleTracker).objects → 1 ≤ j) :=
  track_ids_monotone ⟨1, [(0, (0, 0))], [(0, 0)], 50⟩ [⟨100, 0, 0, 0⟩]
    ⟨rfl, by decide, by decide⟩

/-! ### The fate of an unmatched track in one update -/

theorem unmatched_row_mem (t : SimpleTracker) (i : Nat) (ics : List (Nat × Nat))
    (pairs : List (Nat × Nat)) (hWF : WF t) (hobj : i ∈ keysOf t.objects)
    (hne : ∀ rc ∈ pairs, (keysOf t.objects).getD rc.1 0 ≠ i) :
    i ∈ (((List.range (distMatrix (t.objects.map Prod.snd) ics).length).filter
          (fun r => decide (r ∉ pairs.map Prod.fst))).map
          (fun r => (keysOf t.objects).getD r 0)) ∧
    ((((List.range (distMatrix (t.objects.map Prod.snd) ics).length).filter
          (fun r => decide (r ∉ pairs.map Prod.fst))).map
          (fun r => (keysOf t.objects).getD r 0))).Nodup := by
  have hlen : (distMatrix (t.objects.map Prod.snd) ics).length
      = (keysOf t.objects).length := by
    simp [distMatrix, keysOf]
  obtain ⟨r, hr, hget⟩ := List.mem_iff_getElem.mp hobj
  constructor
  · apply List.mem_map.mpr
    refine ⟨r, ?_, ?_⟩
    · apply List.mem_filter.mpr
      refine ⟨List.mem_range.mpr (by rw [hlen]; exact hr), ?_⟩
      apply decide_eq_true
      intro hmem
      obtain ⟨rc, hrc, hrc1⟩ := List.mem_map.mp hmem
      apply hne rc hrc
      rw [hrc1, List.getD_eq_getElem _ 0 hr, hget]
    · rw [List.getD_eq_getElem _ 0 hr, hget]
  · apply List.Nodup.map_on
    · intro x hx y hy hxy
      have hx1 : x < (keysOf t.objects).length := by
        have := List.mem_range.mp (List.mem_filter.mp hx).1
        omega
      have hy1 : y < (keysOf t.objects).length := by
        have := List.mem_range.mp (List.mem_filter.mp hy).1
        omega
      rw [List.getD_eq_getElem _ 0 hx1, List.getD_eq_getElem _ 0 hy1] at hxy
      exact (hWF.nodup.getElem_inj_iff).mp hxy
    · exact (List.nodup_range _).filter _

theorem unmatched_step (t : SimpleTracker) (ds : List Det) (i d : Nat)
    (hWF : WF t) (hobj : i ∈ keysOf t.objects)
    (hd : t.disappeared.lookup i = some d)
    (hunm : i ∉ matchedIds t ds) :
    (t.max_disappeared < d + 1 → i ∉ keysOf (update t ds).objects) ∧
    (d + 1 ≤ t.max_disappeared →
      i ∈ keysOf (update t ds).objects ∧
      (update t ds).disappeared.lookup i = some (d + 1)) := by
  have hlt : i < t.next_object_id := hWF.lt_next i hobj
  cases hdE : ds.isEmpty with
  | true =>
      have hdsnil : ds = [] := by
        cases ds with
        | nil => rfl
        | cons a l => cases hdE
      subst hdsnil
      have he : update t [] = (keysOf t.disappeared).foldl disappearStep t := rfl
      have haar := aged_then_registered t (keysOf t.disappeared) [] i d hWF hobj hd
        (hWF.keys_eq ▸ hobj) (hWF.keys_eq ▸ hWF.nodup) hlt
      rw [List.foldl_nil] at haar
      rw [he]
      exact haar
  | false =>
      have hone : t.objects.isEmpty = false := by
        cases h : t.objects with
        | nil => rw [h] at hobj; cases hobj
        | cons a l => rfl
      have hne1 : t.objects ≠ [] := by
        intro hh; rw [hh] at hone; cases hone
      have hne2 : ds ≠ [] := by
        intro hh; rw [hh] at hdE; cases hdE
      have hunm2 : ∀ rc ∈ (greedyAssign (distMatrix (t.objects.map Prod.snd)
            (ds.map centroidOf))
          ((argsort ((distMatrix (t.objects.map Prod.snd) (ds.map centroidOf)).map
            rowMin)).zip
           ((argsort ((distMatrix (t.objects.map Prod.snd) (ds.map centroidOf)).map
            rowMin)).map
            (fun r => argmin ((distMatrix (t.objects.map Prod.snd)
              (ds.map centroidOf)).getD r [])))) [] []),
          (keysOf t.objects).getD rc.1 0 ≠ i := by
        intro rc hrc heq
        apply hunm
        simp only [matchedIds, hdE, hone, Bool.false_eq_true, if_false]
        exact List.mem_map.mpr ⟨rc.1, List.mem_map.mpr ⟨rc, hrc, rfl⟩, heq⟩
      obtain ⟨hm, hnd⟩ := unmatched_row_mem t i (ds.map centroidOf) _ hWF hobj hunm2
      rw [update_eq_spec t ds hne1 hne2]
      rw [spec_update]
      set ics := ds.map centroidOf with hics
      set ids := keysOf t.objects with hids
      set D := distMatrix (t.objects.map Prod.snd) ics with hD
      set pairs := greedyAssign D ((argsort (D.map rowMin)).zip
        ((argsort (D.map rowMin)).map (fun r => argmin (D.getD r [])))) [] []
        with hpairs
      set t1 := pairs.foldl (applyMatch ids ics) t with ht1
      set gL := (((List.range D.length).filter
        (fun r => decide (r ∉ pairs.map Prod.fst))).map
        (fun r => ids.getD r 0)) with hgL
      set ucs := (List.range ics.length).filter
        (fun c => decide (c ∉ pairs.map Prod.snd)) with hucs
      obtain ⟨k1, k2, k3, k4⟩ := foldl_applyMatch_keys ids ics pairs t
      have hWF1 : WF t1 := foldl_applyMatch_WF ids ics pairs t hWF
      have hobj1 : i ∈ keysOf t1.objects := by rw [k1]; exact hobj
      have hd1 : t1.disappeared.lookup i = some d := by
        rw [foldl_applyMatch_lookup_ne ids ics pairs t i hunm2, hd]
      have hlt1 : i < t1.next_object_id := by rw [k3]; exact hlt
      have haar := aged_then_registered t1 gL (ucs.map (fun c => ics.getD c (0, 0)))
        i d hWF1 hobj1 hd1 hm hnd hlt1
      rw [k4] at haar
      rw [show (ucs.foldl (fun s c => register s (ics.getD c (0, 0)))
            (gL.foldl disappearStep t1))
          = (ucs.map (fun c => ics.getD c (0, 0))).foldl register
            (gL.foldl disappearStep t1) from (List.foldl_map _ _ _ _).symm]
      exact haar

/-! ### Expiry over update sequences -/

theorem absent_updates (dss : List (List Det)) : ∀ (t : SimpleTracker) (i : Nat),
    WF t → i ∉ keysOf t.objects → i < t.next_object_id →
    i ∉ keysOf (updates t dss).objects := by
  induction dss with
  | nil => intro t i _ h _; exact h
  | cons ds rest ih =>
      intro t i hWF habs hlt
      have he : updates t (ds :: rest) = updates (update t ds) rest := by
        rw [updates, updates, List.foldl_cons]
      rw [he]
      obtain ⟨hWF2, hn, -, hmem⟩ := update_WF t ds hWF
      apply ih (update t ds) i hWF2
      · intro hc
        rcases hmem i hc with h1 | h1
        · exact habs h1
        · omega
      · omega

theorem expiry_aux : ∀ (dss : List (List Det)), dss ≠ [] →
    ∀ (t : SimpleTracker) (i d : Nat), WF t → i ∈ keysOf t.objects →
    t.disappeared.lookup i = some d → UnmatchedAll i t dss →
    t.max_disappeared + 1 ≤ d + dss.length →
    i ∉ keysOf (updates t dss).objects := by
  intro dss
  induction dss with
  | nil => intro h; exact absurd rfl h
  | cons ds rest ih =>
      intro _ t i d hWF hobj hd hunm hlen
      obtain ⟨hu1, hu2⟩ := hunm
      obtain ⟨ha, hb⟩ := unmatched_step t ds i d hWF hobj hd hu1
      have hupd : updates t (ds :: rest) = updates (update t ds) rest := by
        rw [updates, updates, List.foldl_cons]
      rw [hupd]
      obtain ⟨hWF2, hnext, hmax, -⟩ := update_WF t ds hWF
      by_cases hc : t.max_disappeared < d + 1
      · have habs := ha hc
        exact absent_updates rest (update t ds) i hWF2 habs
          (by have := hWF.lt_next i hobj; omega)
      · push_neg at hc
        obtain ⟨hobj2, hd2⟩ := hb hc
        cases rest with
        | nil =>
            exfalso
            simp only [List.length_cons, List.length_nil] at hlen
            omega
        | cons r0 rrest =>
            apply ih (by simp) (update t ds) i (d + 1) hWF2 hobj2 hd2 hu2
            rw [hmax]
            simp only [List.length_cons] at hlen ⊢
            omega

/-! ### Claim C4 -/

/-- C4: a live track of a well-formed state that matches no detection in
max_disappeared + 1 consecutive update calls (empty-detection calls
included) is absent from the mapping returned by the last of those
calls; moreover, after any single update in which a live track with
counter d goes unmatched, the track survives exactly when the
incremented counter d + 1 does not exceed max_disappeared. -/
theorem track_expiry (t : SimpleTracker) (i : Nat) (dss : List (List Det))
    (hWF : WF t) (hlive : i ∈ keysOf t.objects)
    (hunm : UnmatchedAll i t dss)
    (hlen : t.max_disappeared + 1 ≤ dss.length) :
    i ∉ keysOf (updates t dss).objects ∧
    (∀ ds d, t.disappeared.lookup i = some d → i ∉ matchedIds t ds →
      (i ∈ keysOf (update t ds).objects ↔ d + 1 ≤ t.max_disappeared)) := by
  constructor
  · obtain ⟨d, hd⟩ := (mem_keysOf_iff_lookup t.disappeared i).mp (hWF.keys_eq ▸ hlive)
    have hne : dss ≠ [] := by
      intro hh
      rw [hh] at hlen
      simp at hlen
    exact expiry_aux dss hne t i d hWF hlive hd hunm (by omega)
  · intro ds d hd hunmd
    obtain ⟨ha, hb⟩ := unmatched_step t ds i d hWF hlive hd hunmd
    constructor
    · intro hmem
      by_contra hcon
      push_neg at hcon
      exact ha hcon hmem
    · intro hle
      exact (hb hle).1

/-- C4 witness: a track with max_disappeared = 1 vanishes after two
empty updates; the step-level threshold equivalence at counter 0. -/
theorem track_expiry_witness :
    (0 : Nat) ∉ keysOf (updates ⟨1, [(0, (0, 0))], [(0, 0)], 1⟩ [[], []]).objects ∧
    (∀ ds d, (⟨1, [(0, (0, 0))], [(0, 0)], 1⟩ : SimpleTracker).disappeared.lookup 0
        = some d →
      0 ∉ matchedIds ⟨1, [(0, (0, 0))], [(0, 0)], 1⟩ ds →
      (0 ∈ keysOf (update ⟨1, [(0, (0, 0))], [(0, 0)], 1⟩ ds).objects ↔ d + 1 ≤ 1)) :=
  track_expiry ⟨1, [(0, (0, 0))], [(0, 0)], 1⟩ 0 [[], []]
    ⟨rfl, by decide, by decide⟩ (by decide) ⟨by decide, by decide, trivial⟩ (by decide)

/-! ### Claim C10 -/

/-- C10: the 50-pixel assignment gate is strict.  For a single live
track and a single detection (the track's arg-min column with nothing
consumed), a detection centroid at squared distance exactly 2500
(Euclidean distance exactly 50) is accepted: the track takes the new
centroid and its counter resets.  A squared distance above 2500
(distance strictly greater than 50) is rejected: the track ages by one
and the detection registers as a new track. -/
theorem gate_boundary_strict (c1 : Nat × Nat) (dt : Det) (m : Nat) :
    (sqdist c1 (centroidOf dt) = 2500 →
      update ⟨1, [(0, c1)], [(0, 0)], m⟩ [dt]
        = ⟨1, [(0, centroidOf dt)], [(0, 0)], m⟩) ∧
    (2500 < sqdist c1 (centroidOf dt) → 1 ≤ m →
      update ⟨1, [(0, c1)], [(0, 0)], m⟩ [dt]
        = ⟨2, [(0, c1), (1, centroidOf dt)], [(0, 1), (1, 0)], m⟩) := by
  constructor
  · intro h
    simp [update, matchLoop, distMatrix, rowMin, argsort, insertIdx, argmin,
      argminGo, keysOf, setVal, h, List.range_succ]
  · intro h hm
    have hm0 : m ≠ 0 := by omega
    simp [update, matchLoop, distMatrix, rowMin, argsort, insertIdx, argmin,
      argminGo, keysOf, setVal, h, List.range_succ, disappearStep, List.lookup,
      register, deregister, removeKey, hm0]

/-- C10 witness: the track at (0,0) accepts the detection centred at
(50,0) — distance exactly 50 — and rejects the one at (51,0). -/
theorem gate_boundary_strict_witness :
    update ⟨1, [(0, (0, 0))], [(0, 0)], 50⟩ [⟨50, 0, 0, 0⟩]
      = ⟨1, [(0, (50, 0))], [(0, 0)], 50⟩ ∧
    update ⟨1, [(0, (0, 0))], [(0, 0)], 50⟩ [⟨51, 0, 0, 0⟩]
      = ⟨2, [(0, (0, 0)), (1, (51, 0))], [(0, 1), (1, 0)], 50⟩ :=
  ⟨(gate_boundary_strict (0, 0) ⟨50, 0, 0, 0⟩ 50).1 (by decide),
   (gate_boundary_strict (0, 0) ⟨51, 0, 0, 0⟩ 50).2 (by decide) (by decide)⟩

/-! ### Commutation of aging steps on distinct ids -/

theorem setVal_comm {α : Type} (l : List (Nat × α)) (a b : Nat) (va vb : α)
    (h : a ≠ b) :
    setVal (setVal l a va) b vb = setVal (setVal l b vb) a va := by
  unfold setVal
  rw [List.map_map, List.map_map]
  apply List.map_congr_left
  intro p _
  by_cases hpa : p.1 = a
  · have hpb : ¬p.1 = b := by rw [hpa]; exact h
    simp [Function.comp, hpa, hpb, h]
  · by_cases hpb : p.1 = b
    · have hba : ¬b = a := fun hh => h hh.symm
      simp [Function.comp, hpa, hpb, hba]
    · simp [Function.comp, hpa, hpb]

theorem removeKey_setVal_self {α : Type} (l : List (Nat × α)) (k : Nat) (v : α) :
    removeKey (setVal l k v) k = removeKey l k := by
  induction l with
  | nil => rfl
  | cons p rest ih =>
      obtain ⟨a, c⟩ := p
      show ((if a = k then (k, v) else (a, c)) :: setVal rest k v).filter
          (fun q => q.1 != k)
        = ((a, c) :: rest).filter (fun q => q.1 != k)
      by_cases hp : a = k
      · rw [if_pos hp, List.filter_cons_of_neg (by simp),
          List.filter_cons_of_neg (by simp [hp])]
        exact ih
      · rw [if_neg hp, List.filter_cons_of_pos (by simp [hp]),
          List.filter_cons_of_pos (by simp [hp])]
        exact congrArg _ ih

theorem removeKey_setVal_comm {α : Type} (l : List (Nat × α)) (k j : Nat) (v : α)
    (h : k ≠ j) :
    removeKey (setVal l k v) j = setVal (removeKey l j) k v := by
  induction l with
  | nil => rfl
  | cons p rest ih =>
      obtain ⟨a, c⟩ := p
      show ((if a = k then (k, v) else (a, c)) :: setVal rest k v).filter
          (fun q => q.1 != j)
        = setVal (((a, c) :: rest).filter (fun q => q.1 != j)) k v
      by_cases hp : a = k
      · rw [if_pos hp, List.filter_cons_of_pos (by simp [h]),
          List.filter_cons_of_pos (by simp [hp, h])]
        show (k, v) :: (setVal rest k v).filter (fun q => q.1 != j)
          = (if a = k then (k, v) else (a, c))
              :: setVal (rest.filter (fun q => q.1 != j)) k v
        rw [if_pos hp]
        exact congrArg _ ih
      · by_cases hpj : a = j
        · rw [if_neg hp, List.filter_cons_of_neg (by simp [hpj]),
            List.filter_cons_of_neg (by simp [hpj])]
          exact ih
        · rw [if_neg hp, List.filter_cons_of_pos (by simp [hpj]),
            List.filter_cons_of_pos (by simp [hpj])]
          show (a, c) :: (setVal rest k v).filter (fun q => q.1 != j)
            = (if a = k then (k, v) else (a, c))
                :: setVal (rest.filter (fun q => q.1 != j)) k v
          rw [if_neg hp]
          exact congrArg _ ih

theorem removeKey_comm {α : Type} (l : List (Nat × α)) (a b : Nat) :
    removeKey (removeKey l a) b = removeKey (removeKey l b) a := by
  unfold removeKey
  rw [List.filter_filter, List.filter_filter]
  apply List.filter_congr
  intro p _
  rw [Bool.and_comm]

theorem disappearStep_eq_gt (t : SimpleTracker) (k : Nat)
    (hc : t.max_disappeared < (t.disappeared.lookup k).getD 0 + 1) :
    disappearStep t k = ⟨t.next_object_id, removeKey t.objects k,
      removeKey t.disappeared k, t.max_disappeared⟩ := by
  have he : disappearStep t k = deregister { t with disappeared := setVal t.disappeared k ((t.disappeared.lookup k).getD 0 + 1) } k := by
    rw [disappearStep, if_pos hc]
  rw [he, deregister]
  show SimpleTracker.mk t.next_object_id (removeKey t.objects k)
      (removeKey (setVal t.disappeared k ((t.disappeared.lookup k).getD 0 + 1)) k)
      t.max_disappeared = _
  rw [removeKey_setVal_self]

theorem disappearStep_eq_le (t : SimpleTracker) (k : Nat)
    (hc : ¬t.max_disappeared < (t.disappeared.lookup k).getD 0 + 1) :
    disappearStep t k = ⟨t.next_object_id, t.objects,
      setVal t.disappeared k ((t.disappeared.lookup k).getD 0 + 1),
      t.max_disappeared⟩ := by
  rw [disappearStep, if_neg hc]

theorem disappearStep_comm (t : SimpleTracker) (a b : Nat) (hab : a ≠ b) :
    disappearStep (disappearStep t a) b = disappearStep (disappearStep t b) a := by
  have hba : b ≠ a := fun hh => hab hh.symm
  by_cases ha : t.max_disappeared < (t.disappeared.lookup a).getD 0 + 1
  · by_cases hb : t.max_disappeared < (t.disappeared.lookup b).getD 0 + 1
    · rw [disappearStep_eq_gt t a ha, disappearStep_eq_gt t b hb]
      rw [disappearStep_eq_gt _ b (by
        show t.max_disappeared < ((removeKey t.disappeared a).lookup b).getD 0 + 1
        rw [lookup_removeKey_ne _ _ _ hba]
        exact hb)]
      rw [disappearStep_eq_gt _ a (by
        show t.max_disappeared < ((removeKey t.disappeared b).lookup a).getD 0 + 1
        rw [lookup_removeKey_ne _ _ _ hab]
        exact ha)]
      dsimp only
      rw [removeKey_comm t.objects a b, removeKey_comm t.disappeared a b]
    · rw [disappearStep_eq_gt t a ha, disappearStep_eq_le t b hb]
      rw [disappearStep_eq_le _ b (by
        show ¬t.max_disappeared < ((removeKey t.disappeared a).lookup b).getD 0 + 1
        rw [lookup_removeKey_ne _ _ _ hba]
        exact hb)]
      rw [disappearStep_eq_gt _ a (by
        show t.max_disappeared < ((setVal t.disappeared b
            ((t.disappeared.lookup b).getD 0 + 1)).lookup a).getD 0 + 1
        rw [lookup_setVal_ne _ _ _ _ hab]
        exact ha)]
      dsimp only
      rw [lookup_removeKey_ne _ _ _ hba]
      rw [removeKey_setVal_comm _ b a _ hba]
  · by_cases hb : t.max_disappeared < (t.disappeared.lookup b).getD 0 + 1
    · rw [disappearStep_eq_le t a ha, disappearStep_eq_gt t b hb]
      rw [disappearStep_eq_gt _ b (by
        show t.max_disappeared < ((setVal t.disappeared a
            ((t.disappeared.lookup a).getD 0 + 1)).lookup b).getD 0 + 1
        rw [lookup_setVal_ne _ _ _ _ hba]
        exact hb)]
      rw [disappearStep_eq_le _ a (by
        show ¬t.max_disappeared < ((removeKey t.disappeared b).lookup a).getD 0 + 1
        rw [lookup_removeKey_ne _ _ _ hab]
        exact ha)]
      dsimp only
      rw [lookup_removeKey_ne _ _ _ hab]
      rw [removeKey_setVal_comm _ a b _ hab]
    · rw [disappearStep_eq_le t a ha, disappearStep_eq_le t b hb]
      rw [disappearStep_eq_le _ b (by
        show ¬t.max_disappeared < ((setVal t.disappeared a
            ((t.disappeared.lookup a).getD 0 + 1)).lookup b).getD 0 + 1
        rw [lookup_setVal_ne _ _ _ _ hba]
        exact hb)]
      rw [disappearStep_eq_le _ a (by
        show ¬t.max_disappeared < ((setVal t.disappeared b
            ((t.disappeared.lookup b).getD 0 + 1)).lookup a).getD 0 + 1
        rw [lookup_setVal_ne _ _ _ _ hab]
        exact ha)]
      dsimp only
      rw [lookup_setVal_ne _ _ _ _ hba, lookup_setVal_ne _ _ _ _ hab]
      rw [setVal_comm _ a b _ _ hab]

theorem foldl_disappearStep_perm (L1 L2 : List Nat) (hp : L1.Perm L2)
    (t : SimpleTracker) :
    L1.foldl disappearStep t = L2.foldl disappearStep t := by
  apply List.Perm.foldl_eq' hp ?_ t
  intro x _ y _ z
  by_cases hxy : x = y
  · rw [hxy]
  · exact disappearStep_comm z x y hxy

/-! ### pySetOrder is a permutation, and ascending below 8 -/

theorem sum_single_spike (c k : Nat) : ∀ n, k < n →
    ((List.range n).map (fun s => if k = s then c else 0)).sum = c := by
  intro n
  induction n with
  | zero => intro h; exact absurd h (Nat.not_lt_zero k)
  | succ m ih =>
      intro hk
      rw [List.range_succ, List.map_append, List.sum_append]
      by_cases h : k = m
      · subst h
        have h0 : ((List.range k).map (fun s => if k = s then c else 0)).sum = 0 := by
          apply List.sum_eq_zero
          intro x hx
          obtain ⟨s, hs, rfl⟩ := List.mem_map.mp hx
          have : s < k := List.mem_range.mp hs
          rw [if_neg (by omega)]
        rw [h0]
        simp
      · have hk2 : k < m := by omega
        rw [ih hk2]
        simp [h]

theorem pySetOrder_perm (l : List Nat) : (pySetOrder l).Perm l := by
  rw [List.perm_iff_count]
  intro a
  rw [pySetOrder, List.count_flatMap]
  have hc : ∀ s ∈ List.range 8,
      (List.count a ∘ fun slot => l.filter (fun x => x % 8 == slot)) s
        = if a % 8 = s then List.count a l else 0 := by
    intro s _
    show List.count a (l.filter (fun x => x % 8 == s)) = _
    by_cases h : a % 8 = s
    · rw [if_pos h]
      apply List.count_filter
      simpa using h
    · rw [if_neg h]
      rw [List.count_eq_zero]
      intro hmem
      have h2 := (List.mem_filter.mp hmem).2
      simp at h2
      exact h h2
  rw [List.map_congr_left hc]
  exact sum_single_spike (List.count a l) (a % 8) 8 (Nat.mod_lt _ (by omega))

theorem flatMap_filter_range' (q : Nat → Bool) : ∀ (m a : Nat),
    (List.range' a m).flatMap
        (fun s => ((List.range' a m).filter q).filter (fun x => x == s))
      = (List.range' a m).filter q := by
  intro m
  induction m with
  | zero => intro a; rfl
  | succ n ih =>
      intro a
      rw [List.range'_succ, List.flatMap_cons]
      have hgt : ∀ x ∈ List.range' (a + 1) n, a < x := by
        intro x hx
        rw [List.mem_range'] at hx
        obtain ⟨i, hi, rfl⟩ := hx
        omega
      have hfq : (a :: List.range' (a + 1) n).filter q
          = (if q a then [a] else []) ++ (List.range' (a + 1) n).filter q := by
        rw [List.filter_cons]
        by_cases h : q a <;> simp [h]
      have h1 : ((a :: List.range' (a + 1) n).filter q).filter (fun x => x == a)
          = if q a then [a] else [] := by
        rw [hfq, List.filter_append]
        have hz : ((List.range' (a + 1) n).filter q).filter (fun x => x == a)
            = [] := by
          rw [List.filter_eq_nil_iff]
          intro x hx
          have hax := hgt x (List.mem_filter.mp hx).1
          simp
          omega
        rw [hz, List.append_nil]
        by_cases h : q a <;> simp [h]
      have h2 : (List.range' (a + 1) n).flatMap
            (fun s => ((a :: List.range' (a + 1) n).filter q).filter
              (fun x => x == s))
          = (List.range' (a + 1) n).flatMap
            (fun s => ((List.range' (a + 1) n).filter q).filter
              (fun x => x == s)) := by
        show ((List.range' (a + 1) n).map
            (fun s => ((a :: List.range' (a + 1) n).filter q).filter
              (fun x => x == s))).flatten
          = ((List.range' (a + 1) n).map
            (fun s => ((List.range' (a + 1) n).filter q).filter
              (fun x => x == s))).flatten
        apply congrArg
        apply List.map_congr_left
        intro s hs
        rw [hfq, List.filter_append]
        have has : ¬a = s := by
          have := hgt s hs
          omega
        have hz2 : (if q a then [a] else ([] : List Nat)).filter
            (fun x => x == s) = [] := by
          by_cases h : q a <;> simp [h, has]
        rw [hz2, List.nil_append]
      rw [h1, h2, ih (a + 1), hfq]

theorem pySetOrder_ascending (n : Nat) (hn : n ≤ 8) (p : Nat → Bool) :
    pySetOrder ((List.range n).filter p) = (List.range n).filter p := by
  rw [pySetOrder]
  have hinner : ∀ s ∈ List.range 8,
      ((List.range n).filter p).filter (fun x => x % 8 == s)
        = ((List.range n).filter p).filter (fun x => x == s) := by
    intro s _
    apply List.filter_congr
    intro x hx
    have hxn := List.mem_range.mp (List.mem_filter.mp hx).1
    rw [Nat.mod_eq_of_lt (by omega)]
  have hmapeq : (List.range 8).flatMap
        (fun s => ((List.range n).filter p).filter (fun x => x % 8 == s))
      = (List.range 8).flatMap
        (fun s => ((List.range n).filter p).filter (fun x => x == s)) := by
    show ((List.range 8).map
        (fun s => ((List.range n).filter p).filter (fun x => x % 8 == s))).flatten
      = ((List.range 8).map
        (fun s => ((List.range n).filter p).filter (fun x => x == s))).flatten
    exact congrArg _ (List.map_congr_left hinner)
  rw [hmapeq]
  have hq : (List.range n).filter p
      = (List.range 8).filter (fun x => decide (x < n) && p x) := by
    have hsplit : List.range 8 = List.range n ++ List.range' n (8 - n) := by
      rw [List.range_eq_range', List.range_eq_range' n]
      have happ := List.range'_append 0 n (8 - n) 1
      rw [show 0 + 1 * n = n from by omega] at happ
      rw [show 8 - n + n = 8 from by omega] at happ
      exact happ.symm
    rw [hsplit, List.filter_append]
    have hA : (List.range n).filter (fun x => decide (x < n) && p x)
        = (List.range n).filter p := by
      apply List.filter_congr
      intro x hx
      have := List.mem_range.mp hx
      simp [this]
    have hB : (List.range' n (8 - n)).filter (fun x => decide (x < n) && p x)
        = [] := by
      rw [List.filter_eq_nil_iff]
      intro x hx
      rw [List.mem_range'] at hx
      obtain ⟨i, hi, rfl⟩ := hx
      simp
    rw [hA, hB, List.append_nil]
  rw [hq, List.range_eq_range']
  exact flatMap_filter_range' (fun x => decide (x < n) && p x) 8 0

theorem update_cpython_eq_update (t : SimpleTracker) (dets : List Det)
    (h8 : dets.length ≤ 8) :
    update_cpython t dets = update t dets := by
  cases hd : dets.isEmpty with
  | true => rw [update_cpython, update, if_pos hd, if_pos hd]
  | false =>
      cases ho : t.objects.isEmpty with
      | true =>
          have e1 : update_cpython t dets
              = (dets.map centroidOf).foldl register t := by
            simp [update_cpython, hd, ho]
          have e2 : update t dets = (dets.map centroidOf).foldl register t := by
            simp [update, hd, ho]
          rw [e1, e2]
      | false =>
          simp only [update_cpython, update, hd, ho, Bool.false_eq_true, if_false]
          set ics := dets.map centroidOf with hics
          set objectIds := keysOf t.objects with hids
          set D := distMatrix (t.objects.map Prod.snd) ics with hD
          set res := matchLoop D objectIds ics
            ((argsort (D.map rowMin)).zip
              ((argsort (D.map rowMin)).map (fun r => argmin (D.getD r [])))) [] [] t
            with hres
          rw [pySetOrder_ascending ics.length (by rw [hics, List.length_map]; exact h8)]
          set RF := (List.range D.length).filter (fun r => decide (r ∉ res.1)) with hRF
          have hperm : ((pySetOrder RF).map (fun r => objectIds.getD r 0)).Perm
              (RF.map (fun r => objectIds.getD r 0)) :=
            (pySetOrder_perm RF).map _
          rw [foldl_disappearStep_perm _ _ hperm res.2.2]

/-! ### Claim C1 (corrected) -/

/-- C1 counterexample: seven live tracks matching detections 0-6, plus
two far detections 7 and 8.  The unused-column set is the two-element
set of 7 and 8, which CPython iterates as [8, 7] (slot 8 mod 8 = 0
precedes slot 7), so the source registers the centroid of detection 8
under id 7 and the centroid of detection 7 under id 8 — not in input
order as the claim states and as the claim-side spec_update computes. -/
theorem update_registration_order_counterexample :
    (update_cpython ⟨7, [(0, (0, 0)), (1, (0, 100)), (2, (0, 200)), (3, (0, 300)),
          (4, (0, 400)), (5, (0, 500)), (6, (0, 600))],
        [(0, 0), (1, 0), (2, 0), (3, 0), (4, 0), (5, 0), (6, 0)], 50⟩
      [⟨0, 0, 0, 0⟩, ⟨0, 100, 0, 0⟩, ⟨0, 200, 0, 0⟩, ⟨0, 300, 0, 0⟩, ⟨0, 400, 0, 0⟩,
       ⟨0, 500, 0, 0⟩, ⟨0, 600, 0, 0⟩, ⟨1000, 0, 0, 0⟩, ⟨1000, 100, 0, 0⟩]).objects
      = [(0, (0, 0)), (1, (0, 100)), (2, (0, 200)), (3, (0, 300)), (4, (0, 400)),
         (5, (0, 500)), (6, (0, 600)), (7, (1000, 100)), (8, (1000, 0))] ∧
    (spec_update ⟨7, [(0, (0, 0)), (1, (0, 100)), (2, (0, 200)), (3, (0, 300)),
          (4, (0, 400)), (5, (0, 500)), (6, (0, 600))],
        [(0, 0), (1, 0), (2, 0), (3, 0), (4, 0), (5, 0), (6, 0)], 50⟩
      [⟨0, 0, 0, 0⟩, ⟨0, 100, 0, 0⟩, ⟨0, 200, 0, 0⟩, ⟨0, 300, 0, 0⟩, ⟨0, 400, 0, 0⟩,
       ⟨0, 500, 0, 0⟩, ⟨0, 600, 0, 0⟩, ⟨1000, 0, 0, 0⟩, ⟨1000, 100, 0, 0⟩]).objects
      = [(0, (0, 0)), (1, (0, 100)), (2, (0, 200)), (3, (0, 300)), (4, (0, 400)),
         (5, (0, 500)), (6, (0, 600)), (7, (1000, 0)), (8, (1000, 100))] ∧
    update_cpython ⟨7, [(0, (0, 0)), (1, (0, 100)), (2, (0, 200)), (3, (0, 300)),
          (4, (0, 400)), (5, (0, 500)), (6, (0, 600))],
        [(0, 0), (1, 0), (2, 0), (3, 0), (4, 0), (5, 0), (6, 0)], 50⟩
      [⟨0, 0, 0, 0⟩, ⟨0, 100, 0, 0⟩, ⟨0, 200, 0, 0⟩, ⟨0, 300, 0, 0⟩, ⟨0, 400, 0, 0⟩,
       ⟨0, 500, 0, 0⟩, ⟨0, 600, 0, 0⟩, ⟨1000, 0, 0, 0⟩, ⟨1000, 100, 0, 0⟩]
      ≠ spec_update ⟨7, [(0, (0, 0)), (1, (0, 100)), (2, (0, 200)), (3, (0, 300)),
          (4, (0, 400)), (5, (0, 500)), (6, (0, 600))],
        [(0, 0), (1, 0), (2, 0), (3, 0), (4, 0), (5, 0), (6, 0)], 50⟩
      [⟨0, 0, 0, 0⟩, ⟨0, 100, 0, 0⟩, ⟨0, 200, 0, 0⟩, ⟨0, 300, 0, 0⟩, ⟨0, 400, 0, 0⟩,
       ⟨0, 500, 0, 0⟩, ⟨0, 600, 0, 0⟩, ⟨1000, 0, 0, 0⟩, ⟨1000, 100, 0, 0⟩] :=
  ⟨by decide, by decide, by decide⟩

/-- C1 (amended): on a state with at least one live track and a
non-empty detection list of at most 8 detections — so that every column
index is below the CPython set table size 8 and the unused-column set
iterates in ascending input order — update with CPython set-iteration
order is exactly the specification's greedy nearest-neighbor
assignment: pairwise distance matrix (tracks in dict order by rows,
input centroids in input order by columns), rows processed by ascending
per-row minimum, each row assigned its arg-min column unless the row or
column is consumed or the distance exceeds the 50-pixel gate; matched
tracks get the new centroid and a reset counter, unmatched rows age
(with threshold deregistration) and unmatched columns register as new
tracks in input order.  With 9 or more detections the unmatched columns
register in CPython set-iteration order instead, which can deviate from
input order. -/
theorem update_cpython_greedy_amended (t : SimpleTracker) (dets : List Det)
    (h1 : t.objects ≠ []) (h2 : dets ≠ []) (h8 : dets.length ≤ 8) :
    update_cpython t dets = spec_update t dets := by
  rw [update_cpython_eq_update t dets h8]
  exact update_eq_spec t dets h1 h2

/-- C1 witness: two live tracks at (0,0) and (100,100) and two
detections with centroids (1,1) and (99,99). -/
theorem update_cpython_greedy_amended_witness :
    update_cpython ⟨2, [(0, (0, 0)), (1, (100, 100))], [(0, 0), (1, 0)], 50⟩
        [⟨1, 1, 0, 0⟩, ⟨99, 99, 0, 0⟩]
      = spec_update ⟨2, [(0, (0, 0)), (1, (100, 100))], [(0, 0), (1, 0)], 50⟩
        [⟨1, 1, 0, 0⟩, ⟨99, 99, 0, 0⟩] :=
  update_cpython_greedy_amended
    ⟨2, [(0, (0, 0)), (1, (100, 100))], [(0, 0), (1, 0)], 50⟩
    [⟨1, 1, 0, 0⟩, ⟨99, 99, 0, 0⟩] (by decide) (by decide) (by decide)

/-! ### Claim C6 (corrected) -/

/-- C6 counterexample: the sampling stride is not configurable.  On a
six-frame sequence the source processes exactly frames 0 and 5 (the
stride is the hard-coded literal 5 in process_video); a stride of 2
would process frames 0, 2 and 4, and the pipeline's output differs from
the stride-2 sampling contract — there is no configuration under which
the source samples every 2nd frame. -/
theorem process_video_stride_not_configurable :
    process_video (fun _ : Unit => ([] : List Det)) initProcessor
        [(), (), (), (), (), ()]
      ≠ processAll (fun _ : Unit => ([] : List Det)) initProcessor
        (sampledFrames 2 [(), (), (), (), (), ()]) ∧
    (process_video (fun _ : Unit => ([] : List Det)) initProcessor
        [(), (), (), (), (), ()]).2.length = 2 ∧
    (sampledFrames 2 [(), (), (), (), (), ()]).length = 3 :=
  ⟨by decide, by decide, by decide⟩

end OskarTrack
